import Mathlib

/-!
# MyTinySTL heap algorithms (`heap_algo.h`)

A shallow embedding of `push_heap`, `pop_heap`, `sort_heap` and `make_heap`
together with their helpers, followed by the properties proved about them.

Modelling conventions.

* The storage addressed through the iterator `first` is a `List α`; the
  iterator `first + k` is the offset `k` from the start of that list, and the
  iterator `last` is passed as the offset `last - first`.
* `Distance` values are natural numbers.  Every `Distance` the code really
  computes is non-negative, with two exceptions that are treated explicitly:
  `(holeIndex - 1) / 2` at `holeIndex = 0`, where the truncating division of
  C++ gives `0`, the value of the natural-number expression, and `last - 1`
  on an empty range, which is treated as an access outside the storage.
  Index arithmetic is unbounded (no wrap-around of `Distance`).
* Every dereference is checked: `load` and `store` return `none` outside the
  storage, and every function returns `none` as soon as one access fails.
* The element type only needs the strict order `<` used by the code.
-/

namespace MyTinySTL

variable {α : Type}

/-! ## Checked memory access -/

/-- Read `*(first + i)`; `none` when `i` is outside the storage. -/
def load (a : List α) (i : Nat) : Option α :=
  a[i]?

/-- Write `*(first + i) = v`; `none` when `i` is outside the storage. -/
def store (a : List α) (i : Nat) (v : α) : Option (List α) :=
  if i < a.length then some (a.set i v) else none

/-! ## push_heap -/

/-- The `while` loop of `__push_heap_aux` (heap_algo.h:27-34).  The local
`parent` is `(holeIndex - 1) / 2` at every evaluation of the loop condition;
the condition short-circuits, so `*(first + parent)` is read only when
`holeIndex > topIndex`.  Returns the storage and the final `holeIndex`. -/
def __push_heap_aux_loop [LT α] [DecidableRel (fun x y : α => x < y)]
    (a : List α) (holeIndex topIndex : Nat) (value : α) : Option (List α × Nat) :=
  let parent := (holeIndex - 1) / 2
  if holeIndex > topIndex then
    match load a parent with
    | none => none
    | some p =>
      if p < value then
        match store a holeIndex p with
        | none => none
        | some a1 => __push_heap_aux_loop a1 parent topIndex value
      else some (a, holeIndex)
  else some (a, holeIndex)
termination_by holeIndex
decreasing_by omega

/-- Embedding of `__push_heap_aux(first, holeIndex, topIndex, value)`
(heap_algo.h:24-36): the loop, then `*(first + holeIndex) = value`. -/
def __push_heap_aux [LT α] [DecidableRel (fun x y : α => x < y)]
    (a : List α) (holeIndex topIndex : Nat) (value : α) : Option (List α) :=
  match __push_heap_aux_loop a holeIndex topIndex value with
  | none => none
  | some (a1, hole) => store a1 hole value

/-- Embedding of `__push_heap(first, last, Distance*, T*)` (heap_algo.h:18-22).
On an empty range `last - 1` lies before `first`, so `*(last - 1)` is an
access outside the storage. -/
def __push_heap [LT α] [DecidableRel (fun x y : α => x < y)]
    (a : List α) (last : Nat) : Option (List α) :=
  if last = 0 then none
  else
    match load a (last - 1) with
    | none => none
    | some value => __push_heap_aux a (last - 1) 0 value

/-- Embedding of `push_heap(first, last)` (heap_algo.h:12-16). -/
def push_heap [LT α] [DecidableRel (fun x y : α => x < y)]
    (a : List α) (last : Nat) : Option (List α) :=
  __push_heap a last

/-! ## pop_heap -/

/-- The first `while` loop of `__adjust_heap` (heap_algo.h:64-71), on the
state `(storage, holeIndex, rchild)`.  Returns the state at loop exit. -/
def __adjust_heap_loop [LT α] [DecidableRel (fun x y : α => x < y)]
    (len : Nat) (a : List α) (holeIndex rchild : Nat) : Option (List α × Nat × Nat) :=
  if rchild < len then
    match load a rchild, load a (rchild - 1) with
    | some r, some l =>
      let rchild1 := if r < l then rchild - 1 else rchild
      match load a rchild1 with
      | none => none
      | some c =>
        match store a holeIndex c with
        | none => none
        | some a1 => __adjust_heap_loop len a1 rchild1 (2 * (rchild1 + 1))
    | _, _ => none
  else some (a, holeIndex, rchild)
termination_by len - rchild
decreasing_by
  all_goals simp_wf
  split <;> omega

/-- Embedding of `__adjust_heap(first, holeIndex, len, value)`
(heap_algo.h:58-79): percolate the hole down, promote a lone left child,
then percolate `value` up with the original `holeIndex` as top. -/
def __adjust_heap [LT α] [DecidableRel (fun x y : α => x < y)]
    (a : List α) (holeIndex len : Nat) (value : α) : Option (List α) :=
  let topIndex := holeIndex
  let rchild := 2 * holeIndex + 2
  match __adjust_heap_loop len a holeIndex rchild with
  | none => none
  | some (a1, holeIndex1, rchild1) =>
    if rchild1 = len then
      match load a1 (rchild1 - 1) with
      | none => none
      | some c =>
        match store a1 holeIndex1 c with
        | none => none
        | some a2 => __push_heap_aux a2 (rchild1 - 1) topIndex value
    else __push_heap_aux a1 holeIndex1 topIndex value

/-- One iteration of the first loop of `__adjust_heap` (heap_algo.h:66-70):
the body of `__adjust_heap_loop`, from the state `(storage, holeIndex, rchild)`
at the loop head to the state after the iteration. -/
def __adjust_heap_body [LT α] [DecidableRel (fun x y : α => x < y)]
    (a : List α) (holeIndex rchild : Nat) : Option (List α × Nat × Nat) :=
  match load a rchild, load a (rchild - 1) with
  | some r, some l =>
    let rchild1 := if r < l then rchild - 1 else rchild
    match load a rchild1 with
    | none => none
    | some c =>
      match store a holeIndex c with
      | none => none
      | some a1 => some (a1, rchild1, 2 * (rchild1 + 1))
  | _, _ => none

/-- The part of `__adjust_heap` after its first loop (heap_algo.h:72-78),
from the final state `(a1, holeIndex1, rchild1)` of the loop, with `topIndex`
as a parameter. -/
def __adjust_heap_tail [LT α] [DecidableRel (fun x y : α => x < y)]
    (len topIndex : Nat) (value : α) (a1 : List α) (holeIndex1 rchild1 : Nat) :
    Option (List α) :=
  if rchild1 = len then
    match load a1 (rchild1 - 1) with
    | none => none
    | some c =>
      match store a1 holeIndex1 c with
      | none => none
      | some a2 => __push_heap_aux a2 (rchild1 - 1) topIndex value
  else __push_heap_aux a1 holeIndex1 topIndex value

/-- Embedding of `__pop_heap_aux(first, last, result, value, Distance*)`
(heap_algo.h:51-56): `*result = *first`, then `__adjust_heap` on
`[first, last)`. -/
def __pop_heap_aux [LT α] [DecidableRel (fun x y : α => x < y)]
    (a : List α) (last result : Nat) (value : α) : Option (List α) :=
  match load a 0 with
  | none => none
  | some top =>
    match store a result top with
    | none => none
    | some a1 => __adjust_heap a1 0 last value

/-- Embedding of `__pop_heap(first, last, T*)` (heap_algo.h:45-49).  On an
empty range `last - 1` lies before `first`, so `*(last - 1)` is an access
outside the storage. -/
def __pop_heap [LT α] [DecidableRel (fun x y : α => x < y)]
    (a : List α) (last : Nat) : Option (List α) :=
  if last = 0 then none
  else
    match load a (last - 1) with
    | none => none
    | some value => __pop_heap_aux a (last - 1) (last - 1) value

/-- Embedding of `pop_heap(first, last)` (heap_algo.h:40-43). -/
def pop_heap [LT α] [DecidableRel (fun x y : α => x < y)]
    (a : List α) (last : Nat) : Option (List α) :=
  __pop_heap a last

/-! ## sort_heap -/

/-- Embedding of `sort_heap(first, last)` (heap_algo.h:83-89):
`while (last - first > 1) pop_heap(first, last--)`. -/
def sort_heap [LT α] [DecidableRel (fun x y : α => x < y)]
    (a : List α) (last : Nat) : Option (List α) :=
  if last > 1 then
    match pop_heap a last with
    | none => none
    | some a1 => sort_heap a1 (last - 1)
  else some a
termination_by last
decreasing_by omega

/-! ## make_heap -/

/-- The `while (true)` loop of `__make_heap` (heap_algo.h:104-109). -/
def __make_heap_loop [LT α] [DecidableRel (fun x y : α => x < y)]
    (len : Nat) (a : List α) (holeIndex : Nat) : Option (List α) :=
  match load a holeIndex with
  | none => none
  | some v =>
    match __adjust_heap a holeIndex len v with
    | none => none
    | some a1 =>
      if holeIndex = 0 then some a1
      else __make_heap_loop len a1 (holeIndex - 1)
termination_by holeIndex
decreasing_by omega

/-- Embedding of `__make_heap(first, last, T*, Distance*)`
(heap_algo.h:98-110). -/
def __make_heap [LT α] [DecidableRel (fun x y : α => x < y)]
    (a : List α) (last : Nat) : Option (List α) :=
  if last < 2 then some a
  else
    let len := last
    let holeIndex := (len - 2) / 2
    __make_heap_loop len a holeIndex

/-- Embedding of `make_heap(first, last)` (heap_algo.h:93-96). -/
def make_heap [LT α] [DecidableRel (fun x y : α => x < y)]
    (a : List α) (last : Nat) : Option (List α) :=
  __make_heap a last

/-! ## Specification vocabulary -/

/-- Every node `i ≥ lo` is not less than each of its children `2i+1`, `2i+2`
that lie below `len`. -/
def HeapFrom [LT α] (a : List α) (lo len : Nat) : Prop :=
  ∀ i c x y, lo ≤ i → (c = 2 * i + 1 ∨ c = 2 * i + 2) → c < len →
    a[i]? = some x → a[c]? = some y → ¬ x < y

/-- The max-heap invariant over the whole sequence. -/
def IsMaxHeap [LT α] (a : List α) : Prop :=
  HeapFrom a 0 a.length

/-- Executable check of `HeapFrom`: every position `c` below `len` whose
parent `(c - 1) / 2` is at least `lo` is compared with that parent. -/
def heapCheck [LT α] [DecidableRel (fun x y : α => x < y)]
    (a : List α) (lo len : Nat) : Bool :=
  (List.range len).all fun c =>
    c == 0 || decide ((c - 1) / 2 < lo) ||
      match a[(c - 1) / 2]?, a[c]? with
      | some x, some y => !decide (x < y)
      | _, _ => true

/-- Index `i` lies in the subtree rooted at `top` under the child maps
`i ↦ 2i+1` and `i ↦ 2i+2`. -/
inductive InSubtree (top : Nat) : Nat → Prop
  | root : InSubtree top top
  | left {i : Nat} : InSubtree top i → InSubtree top (2 * i + 1)
  | right {i : Nat} : InSubtree top i → InSubtree top (2 * i + 2)

/-- Caller-side scenario, not a function of `heap_algo.h`: build a heap
incrementally in place by calling `push_heap(first, first + j)` for
`j = 1, 2, ..., k` in this order, so that each call sees slot `j - 1` of the
storage as the newly appended last element. -/
def push_prefixes [LT α] [DecidableRel (fun x y : α => x < y)]
    (a : List α) : Nat → Option (List α)
  | 0 => some a
  | k + 1 =>
    match push_prefixes a k with
    | none => none
    | some b => push_heap b (k + 1)

/-! ## Memory access and list facts -/

theorem load_eq (a : List α) (i : Nat) : load a i = a[i]? := rfl

theorem load_of_lt {a : List α} {i : Nat} (h : i < a.length) : load a i = some a[i] := by
  simp [load, h]

theorem store_of_lt {a : List α} {i : Nat} (h : i < a.length) (v : α) :
    store a i v = some (a.set i v) := by
  simp [store, h]

theorem getElem_opt_set {a : List α} {i : Nat} (h : i < a.length) (v : α) (k : Nat) :
    (a.set i v)[k]? = if i = k then some v else a[k]? := by
  rw [List.getElem?_set]
  simp [h]

theorem set_getElem_same {a : List α} {i : Nat} (h : i < a.length) : a.set i a[i] = a := by
  apply List.ext_getElem?
  intro k
  rw [getElem_opt_set h]
  split
  · next e => subst e; exact (List.getElem?_eq_getElem h).symm
  · rfl

/-- A rearrangement of the storage that leaves the slots from `n` on alone
rearranges the first `n` slots among themselves. -/
theorem take_perm_of_frame {a b : List α} {n : Nat} (hp : b.Perm a)
    (hf : ∀ i, n ≤ i → b[i]? = a[i]?) : (b.take n).Perm (a.take n) := by
  have hd : b.drop n = a.drop n := by
    apply List.ext_getElem?
    intro k
    rw [List.getElem?_drop, List.getElem?_drop]
    exact hf _ (by omega)
  have h := (List.take_append_drop n b).symm ▸ (List.take_append_drop n a).symm ▸ hp
  rw [hd] at h
  exact (List.perm_append_right_iff _).1 h

theorem prefix_value_of_frame {a b : List α} {n : Nat} (hp : b.Perm a)
    (hf : ∀ i, n ≤ i → b[i]? = a[i]?) {i : Nat} {x : α} (hi : i < n)
    (hx : b[i]? = some x) : ∃ k, k < n ∧ a[k]? = some x := by
  have hmem : x ∈ b.take n :=
    List.mem_iff_getElem?.2 ⟨i, by rw [List.getElem?_take, if_pos hi]; exact hx⟩
  obtain ⟨k, hk⟩ := List.mem_iff_getElem?.1 ((take_perm_of_frame hp hf).mem_iff.1 hmem)
  rw [List.getElem?_take] at hk
  by_cases hkn : k < n
  · rw [if_pos hkn] at hk
    exact ⟨k, hkn, hk⟩
  · rw [if_neg hkn] at hk
    cases hk

theorem set_eq_self_of_getElem {a : List α} {i : Nat} {x : α} (h : a[i]? = some x) :
    a.set i x = a := by
  obtain ⟨hi, hx⟩ := List.getElem?_eq_some_iff.1 h
  rw [← hx]
  exact set_getElem_same hi

section Proofs

variable [LinearOrder α]

/-- Counting an element before and after one write. -/
theorem count_set_add {a : List α} {i : Nat} (h : i < a.length) (v x : α) :
    (a.set i v).count x + (if a[i] = x then 1 else 0)
      = a.count x + (if v = x then 1 else 0) := by
  rw [List.count_set v x a i h]
  have hmem : a[i] ∈ a := List.getElem_mem h
  by_cases hx : a[i] = x
  · have hpos : 0 < a.count x := by
      rw [List.count_pos_iff]
      exact hx ▸ hmem
    simp only [hx, beq_self_eq_true, if_true]
    by_cases hv : v = x <;> simp [hv] <;> omega
  · simp only [hx, if_false]
    by_cases hv : v = x <;> simp [hv, hx]

/-- Moving the value at `j` into slot `i` and placing `v` at `j` is a
rearrangement of placing `v` at `i`. -/
theorem set_set_perm {a : List α} {i j : Nat} {p : α} (v : α) (hi : i < a.length)
    (hj : a[j]? = some p) : ((a.set i p).set j v).Perm (a.set i v) := by
  obtain ⟨hj', hp⟩ := List.getElem?_eq_some_iff.1 hj
  by_cases hij : i = j
  · subst hij
    rw [List.set_set]
  · rw [List.perm_iff_count]
    intro x
    have h1 := count_set_add (a := a.set i p) (i := j) (by simpa using hj') v x
    have h2 := count_set_add hi p x
    have h3 := count_set_add hi v x
    rw [List.getElem_set_ne hij] at h1
    rw [hp] at h1
    omega

/-! ## Index arithmetic of the implicit tree -/

theorem InSubtree.le {top i : Nat} (h : InSubtree top i) : top ≤ i := by
  induction h with
  | root => exact Nat.le_refl _
  | left _ ih => omega
  | right _ ih => omega

theorem InSubtree.parent {top i : Nat} (h : InSubtree top i) (hne : i ≠ top) :
    InSubtree top ((i - 1) / 2) := by
  cases h with
  | root => exact absurd rfl hne
  | @left j hj =>
    have : (2 * j + 1 - 1) / 2 = j := by omega
    rw [this]; exact hj
  | @right j hj =>
    have : (2 * j + 2 - 1) / 2 = j := by omega
    rw [this]; exact hj

theorem inSubtree_zero (i : Nat) : InSubtree 0 i := by
  induction i using Nat.strong_induction_on with
  | _ i ih =>
    rcases Nat.eq_zero_or_pos i with h0 | hpos
    · subst h0; exact InSubtree.root
    · have hp := ih ((i - 1) / 2) (by omega)
      rcases Nat.even_or_odd i with he | ho
      · obtain ⟨k, hk⟩ := he
        have : i = 2 * ((i - 1) / 2) + 2 := by omega
        rw [this]; exact InSubtree.right hp
      · obtain ⟨k, hk⟩ := ho
        have : i = 2 * ((i - 1) / 2) + 1 := by omega
        rw [this]; exact InSubtree.left hp

/-! ## Sift-up: `__push_heap_aux` -/

theorem push_heap_aux_stop {a : List α} {hole top : Nat} (v : α) (h : ¬ hole > top) :
    __push_heap_aux a hole top v = store a hole v := by
  rw [__push_heap_aux, __push_heap_aux_loop]
  simp [h]

theorem push_heap_aux_stay {a : List α} {hole top : Nat} {v p : α} (h : hole > top)
    (hp : load a ((hole - 1) / 2) = some p) (hlt : ¬ p < v) :
    __push_heap_aux a hole top v = store a hole v := by
  rw [__push_heap_aux, __push_heap_aux_loop]
  simp [h, hp, hlt]

theorem push_heap_aux_step {a a1 : List α} {hole top : Nat} {v p : α} (h : hole > top)
    (hp : load a ((hole - 1) / 2) = some p) (hlt : p < v)
    (hs : store a hole p = some a1) :
    __push_heap_aux a hole top v = __push_heap_aux a1 ((hole - 1) / 2) top v := by
  rw [__push_heap_aux, __push_heap_aux_loop]
  simp only [h, hp, hlt, hs, if_true]
  rw [__push_heap_aux]

/-- Sift-up never leaves the storage, keeps the length, rearranges the
storage with `value` placed at the hole, writes no slot above the hole and,
when the hole lies in the subtree of `topIndex`, no slot outside that subtree. -/
theorem push_heap_aux_ok (top : Nat) (v : α) (hole : Nat) :
    ∀ a : List α, hole < a.length →
      ∃ b, __push_heap_aux a hole top v = some b ∧ b.length = a.length ∧
        b.Perm (a.set hole v) ∧ (∀ i, hole < i → b[i]? = a[i]?) ∧
        (InSubtree top hole → ∀ i, ¬ InSubtree top i → b[i]? = a[i]?) := by
  induction hole using Nat.strong_induction_on with
  | _ hole ih =>
    intro a hlen
    have hstore : ∃ b, store a hole v = some b ∧ b.length = a.length ∧
        b.Perm (a.set hole v) ∧ (∀ i, hole < i → b[i]? = a[i]?) ∧
        (InSubtree top hole → ∀ i, ¬ InSubtree top i → b[i]? = a[i]?) := by
      rw [store_of_lt hlen]
      refine ⟨_, rfl, by simp, List.Perm.refl _, fun i hi => ?_, fun hs i hi => ?_⟩
      · rw [getElem_opt_set hlen, if_neg (by omega)]
      · rw [getElem_opt_set hlen, if_neg (fun (e : hole = i) => hi (e ▸ hs))]
    by_cases h : hole > top
    · have hpar : (hole - 1) / 2 < hole := by omega
      have hload := load_of_lt (a := a) (i := (hole - 1) / 2) (by omega)
      by_cases hlt : a[(hole - 1) / 2] < v
      · rw [push_heap_aux_step h hload hlt (store_of_lt hlen _)]
        obtain ⟨b, hb, hl, hperm, hfr, hsub⟩ := ih _ hpar (a.set hole a[(hole - 1) / 2])
          (by simp; omega)
        refine ⟨b, hb, by simpa using hl, ?_, ?_, ?_⟩
        · exact hperm.trans (set_set_perm v hlen (List.getElem?_eq_getElem (by omega)))
        · intro i hi
          rw [hfr i (by omega), getElem_opt_set hlen, if_neg (by omega)]
        · intro hs i hi
          rw [hsub (hs.parent (by omega)) i hi, getElem_opt_set hlen,
            if_neg (fun (e : hole = i) => hi (e ▸ hs))]
      · rw [push_heap_aux_stay h hload hlt]
        exact hstore
    · rw [push_heap_aux_stop v h]
      exact hstore

/-! ## Sift-down: `__adjust_heap` -/

theorem adjust_heap_loop_stop {len : Nat} {a : List α} {hole rchild : Nat}
    (h : ¬ rchild < len) :
    __adjust_heap_loop len a hole rchild = some (a, hole, rchild) := by
  rw [__adjust_heap_loop]
  simp [h]

theorem adjust_heap_loop_left {len : Nat} {a : List α} {hole rchild : Nat} {r l : α}
    (h : rchild < len) (hr : a[rchild]? = some r) (hl : a[rchild - 1]? = some l)
    (hlt : r < l) (hh : hole < a.length) :
    __adjust_heap_loop len a hole rchild
      = __adjust_heap_loop len (a.set hole l) (rchild - 1) (2 * (rchild - 1) + 2) := by
  rw [__adjust_heap_loop]
  simp only [h, load_eq, hr, hl, hlt, if_true, store_of_lt hh]
  rfl

theorem adjust_heap_loop_right {len : Nat} {a : List α} {hole rchild : Nat} {r l : α}
    (h : rchild < len) (hr : a[rchild]? = some r) (hl : a[rchild - 1]? = some l)
    (hlt : ¬ r < l) (hh : hole < a.length) :
    __adjust_heap_loop len a hole rchild
      = __adjust_heap_loop len (a.set hole r) rchild (2 * rchild + 2) := by
  rw [__adjust_heap_loop]
  simp only [h, load_eq, hr, hl, hlt, if_true, if_false, store_of_lt hh]
  rfl

/-- The descent loop stays inside the storage.  It ends with the hole at a
node `h1` of the subtree of `top` whose right child index is at least `len`;
the storage is the old one with the values on the path moved up by one. -/
theorem adjust_heap_loop_ok (len top : Nat) (n : Nat) :
    ∀ (a : List α) (hole : Nat), len - (2 * hole + 2) ≤ n → hole < a.length →
      len ≤ a.length → InSubtree top hole →
      ∃ a1 h1, __adjust_heap_loop len a hole (2 * hole + 2) = some (a1, h1, 2 * h1 + 2) ∧
        len ≤ 2 * h1 + 2 ∧ hole ≤ h1 ∧ (hole < len → h1 < len) ∧ (len ≤ hole → h1 = hole) ∧
        InSubtree top h1 ∧ a1.length = a.length ∧
        (∀ v, (a1.set h1 v).Perm (a.set hole v)) ∧
        (∀ i, len ≤ i → a1[i]? = a[i]?) ∧
        (∀ i, ¬ InSubtree top i → a1[i]? = a[i]?) := by
  induction n with
  | zero =>
    intro a hole hn hh hl hs
    rw [adjust_heap_loop_stop (by omega)]
    exact ⟨a, hole, rfl, by omega, Nat.le_refl _, fun h => h, fun _ => rfl, hs, rfl,
      fun v => List.Perm.refl _, fun i _ => rfl, fun i _ => rfl⟩
  | succ n ih =>
    intro a hole hn hh hl hs
    by_cases hr : 2 * hole + 2 < len
    · have hrv : a[2 * hole + 2]? = some a[2 * hole + 2] :=
        List.getElem?_eq_getElem (by omega)
      have hlv : a[2 * hole + 2 - 1]? = some a[2 * hole + 2 - 1] :=
        List.getElem?_eq_getElem (by omega)
      by_cases hlt : a[2 * hole + 2] < a[2 * hole + 2 - 1]
      · rw [adjust_heap_loop_left hr hrv hlv hlt hh]
        have e : 2 * hole + 2 - 1 = 2 * hole + 1 := by omega
        obtain ⟨a1, h1, heq, h2, h3, h4, h5, h6, h7, h8, h9, h10⟩ :=
          ih (a.set hole a[2 * hole + 2 - 1]) (2 * hole + 2 - 1) (by omega)
            (by simp; omega) (by simpa using hl) (e ▸ InSubtree.left hs)
        refine ⟨a1, h1, heq, h2, by omega, fun _ => h4 (by omega), fun h => by omega, h6,
          by simpa using h7, fun v => ?_, fun i hi => ?_, fun i hi => ?_⟩
        · exact (h8 v).trans (set_set_perm v hh hlv)
        · rw [h9 i hi, getElem_opt_set hh, if_neg (by omega)]
        · rw [h10 i hi, getElem_opt_set hh, if_neg (fun (e : hole = i) => hi (e ▸ hs))]
      · rw [adjust_heap_loop_right hr hrv hlv hlt hh]
        obtain ⟨a1, h1, heq, h2, h3, h4, h5, h6, h7, h8, h9, h10⟩ :=
          ih (a.set hole a[2 * hole + 2]) (2 * hole + 2) (by omega)
            (by simp; omega) (by simpa using hl) (InSubtree.right hs)
        refine ⟨a1, h1, heq, h2, by omega, fun _ => h4 (by omega), fun h => by omega, h6,
          by simpa using h7, fun v => ?_, fun i hi => ?_, fun i hi => ?_⟩
        · exact (h8 v).trans (set_set_perm v hh hrv)
        · rw [h9 i hi, getElem_opt_set hh, if_neg (by omega)]
        · rw [h10 i hi, getElem_opt_set hh, if_neg (fun (e : hole = i) => hi (e ▸ hs))]
    · rw [adjust_heap_loop_stop hr]
      exact ⟨a, hole, rfl, by omega, Nat.le_refl _, fun h => h, fun _ => rfl, hs, rfl,
        fun v => List.Perm.refl _, fun i _ => rfl, fun i _ => rfl⟩


theorem adjust_heap_eq_left {len : Nat} {a a1 : List α} {hole h1 rc : Nat} {c : α} (v : α)
    (hloop : __adjust_heap_loop len a hole (2 * hole + 2) = some (a1, h1, rc))
    (hrc : rc = len) (hc : a1[rc - 1]? = some c) (hh : h1 < a1.length) :
    __adjust_heap a hole len v = __push_heap_aux (a1.set h1 c) (rc - 1) hole v := by
  rw [__adjust_heap]
  simp only [hloop, hrc, load_eq, if_true]
  rw [hrc] at hc
  simp only [hc, store_of_lt hh]

theorem adjust_heap_eq_leaf {len : Nat} {a a1 : List α} {hole h1 rc : Nat} (v : α)
    (hloop : __adjust_heap_loop len a hole (2 * hole + 2) = some (a1, h1, rc))
    (hrc : rc ≠ len) :
    __adjust_heap a hole len v = __push_heap_aux a1 h1 hole v := by
  rw [__adjust_heap]
  simp only [hloop, hrc, if_false]

/-- `__adjust_heap` never leaves the storage, keeps the length, rearranges
the storage with `value` put in place of the element at `holeIndex`, and
writes neither a slot at or above `len` (other than the hole itself) nor a
slot outside the subtree of `holeIndex`. -/
theorem adjust_heap_ok (a : List α) (hole len : Nat) (v : α) (hh : hole < a.length)
    (hl : len ≤ a.length) :
    ∃ b, __adjust_heap a hole len v = some b ∧ b.length = a.length ∧
      b.Perm (a.set hole v) ∧ (∀ i, len ≤ i → i ≠ hole → b[i]? = a[i]?) ∧
      (∀ i, ¬ InSubtree hole i → b[i]? = a[i]?) := by
  obtain ⟨a1, h1, heq, h2, h3, h4, h5, h6, h7, h8, h9, h10⟩ :=
    adjust_heap_loop_ok len hole _ a hole (Nat.le_refl _) hh hl InSubtree.root
  by_cases hc : 2 * h1 + 2 = len
  · have hlv : a1[2 * h1 + 2 - 1]? = some a1[2 * h1 + 2 - 1] :=
      List.getElem?_eq_getElem (by omega)
    have hh1 : h1 < a1.length := by omega
    have e : 2 * h1 + 2 - 1 = 2 * h1 + 1 := by omega
    obtain ⟨b, hb, hbl, hbp, hbf, hbs⟩ := push_heap_aux_ok hole v (2 * h1 + 2 - 1)
      (a1.set h1 a1[2 * h1 + 2 - 1]) (by simp; omega)
    refine ⟨b, ?_, ?_, ?_, ?_, ?_⟩
    · rw [adjust_heap_eq_left v heq hc hlv hh1]
      exact hb
    · rw [hbl]; simpa using h7
    · exact (hbp.trans (set_set_perm v hh1 hlv)).trans (h8 v)
    · intro i hi hne
      rw [hbf i (by omega), getElem_opt_set hh1, if_neg (by omega)]
      exact h9 i hi
    · intro i hi
      rw [hbs (e ▸ InSubtree.left h6) i hi, getElem_opt_set hh1,
        if_neg (fun (e : h1 = i) => hi (e ▸ h6))]
      exact h10 i hi
  · obtain ⟨b, hb, hbl, hbp, hbf, hbs⟩ := push_heap_aux_ok hole v h1 a1 (by omega)
    refine ⟨b, ?_, ?_, ?_, ?_, ?_⟩
    · rw [adjust_heap_eq_leaf v heq hc]
      exact hb
    · rw [hbl]; exact h7
    · exact hbp.trans (h8 v)
    · intro i hi hne
      rcases Nat.lt_or_ge h1 i with hlt | hge
      · rw [hbf i hlt]; exact h9 i hi
      · have hni : ¬ InSubtree hole i := fun hs => by
          have := hs.le
          have := h5 (by omega)
          omega
        rw [hbs h6 i hni]; exact h9 i hi
    · intro i hi
      rw [hbs h6 i hi]
      exact h10 i hi

/-! ## Heap order -/

/-- Sift-up restores the order.  The three hypotheses are the loop invariant:
every edge not entering the hole is in order, the children of the hole are
not above `value`, and they are not above the parent of the hole. -/
theorem push_heap_aux_heap (top len : Nat) (v : α) (hole : Nat) :
    ∀ a b : List α, hole < len → len ≤ a.length → InSubtree top hole →
      (∀ i c x y, top ≤ i → (c = 2 * i + 1 ∨ c = 2 * i + 2) → c < len → c ≠ hole →
        a[i]? = some x → a[c]? = some y → ¬ x < y) →
      (∀ c y, (c = 2 * hole + 1 ∨ c = 2 * hole + 2) → c < len → a[c]? = some y → ¬ v < y) →
      (∀ c p y, hole ≠ top → (c = 2 * hole + 1 ∨ c = 2 * hole + 2) → c < len →
        a[(hole - 1) / 2]? = some p → a[c]? = some y → ¬ p < y) →
      __push_heap_aux a hole top v = some b → HeapFrom b top len := by
  induction hole using Nat.strong_induction_on with
  | _ hole ih =>
    intro a b hh hl hs I1 I2 I3 hb
    have hle := hs.le
    have hfin : store a hole v = some b →
        (hole > top → ∀ p, a[(hole - 1) / 2]? = some p → ¬ p < v) → HeapFrom b top len := by
      intro hst hpar
      rw [store_of_lt (by omega)] at hst
      cases hst
      intro i c x y hi hc hclt hx hy
      rw [getElem_opt_set (by omega)] at hx hy
      by_cases e1 : hole = i
      · subst e1
        rw [if_neg (by omega)] at hy
        rw [if_pos rfl] at hx
        cases hx
        exact I2 c y hc hclt hy
      · rw [if_neg e1] at hx
        by_cases e2 : hole = c
        · rw [if_pos e2] at hy
          cases hy
          have hi' : i = (hole - 1) / 2 := by omega
          exact hpar (by omega) x (hi' ▸ hx)
        · rw [if_neg e2] at hy
          exact I1 i c x y hi hc hclt (Ne.symm e2) hx hy
    by_cases h : hole > top
    · have hpar : (hole - 1) / 2 < hole := by omega
      have hp : a[(hole - 1) / 2]? = some a[(hole - 1) / 2] :=
        List.getElem?_eq_getElem (by omega)
      have hsp := hs.parent (by omega)
      have hlep := hsp.le
      by_cases hlt : a[(hole - 1) / 2] < v
      · rw [push_heap_aux_step h hp hlt (store_of_lt (by omega) _)] at hb
        refine ih _ hpar (a.set hole a[(hole - 1) / 2]) b (by omega) (by simpa using hl)
          hsp ?_ ?_ ?_ hb
        · intro i c x y hi hc hclt hne hx hy
          rw [getElem_opt_set (by omega)] at hx hy
          by_cases e1 : hole = i
          · subst e1
            rw [if_neg (by omega)] at hy
            rw [if_pos rfl] at hx
            cases hx
            exact I3 c _ y (by omega) hc hclt hp hy
          · rw [if_neg e1] at hx
            by_cases e2 : hole = c
            · rw [if_pos e2] at hy
              cases hy
              have hi' : i = (hole - 1) / 2 := by omega
              rw [hi', hp] at hx
              cases hx
              exact lt_irrefl _
            · rw [if_neg e2] at hy
              exact I1 i c x y hi hc hclt (Ne.symm e2) hx hy
        · intro c y hc hclt hy
          rw [getElem_opt_set (by omega)] at hy
          by_cases e : hole = c
          · rw [if_pos e] at hy
            cases hy
            exact lt_asymm hlt
          · rw [if_neg e] at hy
            have := I1 _ c _ y hlep hc hclt (Ne.symm e) hp hy
            exact fun hvy => this (lt_trans hlt hvy)
        · intro c q y hne hc hclt hq hy
          rw [getElem_opt_set (by omega)] at hq hy
          rw [if_neg (by omega)] at hq
          have hqp : ¬ q < a[(hole - 1) / 2] :=
            I1 _ _ q _ (hsp.parent hne).le (by omega) (by omega) (by omega) hq hp
          by_cases e : hole = c
          · rw [if_pos e] at hy
            cases hy
            exact hqp
          · rw [if_neg e] at hy
            have hpy := I1 _ c _ y hlep hc hclt (Ne.symm e) hp hy
            exact fun hqy => absurd
              (lt_of_lt_of_le hqy (le_trans (not_lt.1 hpy) (not_lt.1 hqp))) (lt_irrefl _)
      · rw [push_heap_aux_stay h hp hlt] at hb
        refine hfin hb (fun _ p hp' => ?_)
        rw [hp] at hp'
        cases hp'
        exact hlt
    · rw [push_heap_aux_stop v h] at hb
      exact hfin hb (fun h' => absurd h' h)


theorem HeapFrom.mono {a : List α} {lo lo1 len : Nat} (h : HeapFrom a lo len)
    (hlo : lo ≤ lo1) : HeapFrom a lo1 len :=
  fun i c x y hi hc hclt hx hy => h i c x y (Nat.le_trans hlo hi) hc hclt hx hy

/-- One promotion of the descent: writing at the hole a child value `x` that
is not below any child of the hole keeps every node from `top` on in order. -/
theorem heapFrom_promote {a : List α} {top len hole c : Nat} {x : α}
    (hl : len ≤ a.length) (hs : InSubtree top hole)
    (hc : c = 2 * hole + 1 ∨ c = 2 * hole + 2) (hclt : c < len) (hx : a[c]? = some x)
    (hsib : ∀ s y, (s = 2 * hole + 1 ∨ s = 2 * hole + 2) → s < len → a[s]? = some y → ¬ x < y)
    (H1 : HeapFrom a (top + 1) len) (H2 : hole ≠ top → HeapFrom a top len) :
    HeapFrom (a.set hole x) top len := by
  have hle := hs.le
  intro i k xi yk hi hk hklt hxi hyk
  rw [getElem_opt_set (by omega)] at hxi hyk
  by_cases e1 : hole = i
  · subst e1
    rw [if_neg (by omega)] at hyk
    rw [if_pos rfl] at hxi
    cases hxi
    exact hsib k yk hk hklt hyk
  · rw [if_neg e1] at hxi
    by_cases e2 : hole = k
    · rw [if_pos e2] at hyk
      cases hyk
      have hw : a[hole]? = some a[hole] := List.getElem?_eq_getElem (by omega)
      have h1 := H2 (by omega) i hole xi _ hi (e2 ▸ hk) (by omega) hxi hw
      have h2 := H1 hole c _ x (by omega) hc hclt hw hx
      exact fun hlt => absurd
        (lt_of_lt_of_le hlt (le_trans (not_lt.1 h2) (not_lt.1 h1))) (lt_irrefl _)
    · rw [if_neg e2] at hyk
      by_cases e3 : hole = top
      · exact H1 i k xi yk (by omega) hk hklt hxi hyk
      · exact H2 e3 i k xi yk hi hk hklt hxi hyk

/-- The descent loop keeps the order below `top` and, once the hole has left
`top`, at `top` as well. -/
theorem adjust_heap_loop_heap (len top : Nat) (n : Nat) :
    ∀ (a : List α) (hole : Nat) (a1 : List α) (h1 rc : Nat), len - (2 * hole + 2) ≤ n →
      hole < len → len ≤ a.length → InSubtree top hole →
      HeapFrom a (top + 1) len → (hole ≠ top → HeapFrom a top len) →
      __adjust_heap_loop len a hole (2 * hole + 2) = some (a1, h1, rc) →
      HeapFrom a1 (top + 1) len ∧ (h1 ≠ top → HeapFrom a1 top len) := by
  induction n with
  | zero =>
    intro a hole a1 h1 rc hn hh hl hs H1 H2 heq
    rw [adjust_heap_loop_stop (by omega)] at heq
    cases heq
    exact ⟨H1, H2⟩
  | succ n ih =>
    intro a hole a1 h1 rc hn hh hl hs H1 H2 heq
    have hle := hs.le
    by_cases hr : 2 * hole + 2 < len
    · have hrv : a[2 * hole + 2]? = some a[2 * hole + 2] :=
        List.getElem?_eq_getElem (by omega)
      have hlv : a[2 * hole + 2 - 1]? = some a[2 * hole + 2 - 1] :=
        List.getElem?_eq_getElem (by omega)
      have e : 2 * hole + 2 - 1 = 2 * hole + 1 := by omega
      by_cases hlt : a[2 * hole + 2] < a[2 * hole + 2 - 1]
      · rw [adjust_heap_loop_left hr hrv hlv hlt (by omega)] at heq
        have hp : HeapFrom (a.set hole a[2 * hole + 2 - 1]) top len := by
          refine heapFrom_promote hl hs (Or.inl e) (by omega) hlv ?_ H1 H2
          intro s y hsc hslt hy
          rcases hsc with rfl | rfl
          · rw [← e, hlv] at hy
            cases hy
            exact lt_irrefl _
          · rw [hrv] at hy
            cases hy
            exact lt_asymm hlt
        exact ih _ _ a1 h1 rc (by omega) (by omega) (by simpa using hl)
          (e ▸ InSubtree.left hs) (hp.mono (by omega)) (fun _ => hp) heq
      · rw [adjust_heap_loop_right hr hrv hlv hlt (by omega)] at heq
        have hp : HeapFrom (a.set hole a[2 * hole + 2]) top len := by
          refine heapFrom_promote hl hs (Or.inr rfl) hr hrv ?_ H1 H2
          intro s y hsc hslt hy
          rcases hsc with rfl | rfl
          · rw [← e, hlv] at hy
            cases hy
            exact hlt
          · rw [hrv] at hy
            cases hy
            exact lt_irrefl _
        exact ih _ _ a1 h1 rc (by omega) (by omega) (by simpa using hl)
          (InSubtree.right hs) (hp.mono (by omega)) (fun _ => hp) heq
    · rw [adjust_heap_loop_stop hr] at heq
      cases heq
      exact ⟨H1, H2⟩

/-- Order part of `__adjust_heap`: when every node after `holeIndex` is in
order below `len`, so is every node from `holeIndex` on afterwards. -/
theorem adjust_heap_heap {a b : List α} {hole len : Nat} {v : α} (hh : hole < len)
    (hl : len ≤ a.length) (H : HeapFrom a (hole + 1) len)
    (hb : __adjust_heap a hole len v = some b) : HeapFrom b hole len := by
  obtain ⟨a1, h1, heq, h2, h3, h4, h5, h6, h7, h8, h9, h10⟩ :=
    adjust_heap_loop_ok len hole _ a hole (Nat.le_refl _) (by omega) hl InSubtree.root
  obtain ⟨K1, K2⟩ := adjust_heap_loop_heap len hole _ a hole a1 h1 _ (Nat.le_refl _) hh hl
    InSubtree.root H (fun h => absurd rfl h) heq
  have h1lt := h4 hh
  by_cases hc : 2 * h1 + 2 = len
  · have hlv : a1[2 * h1 + 2 - 1]? = some a1[2 * h1 + 2 - 1] :=
      List.getElem?_eq_getElem (by omega)
    have e : 2 * h1 + 2 - 1 = 2 * h1 + 1 := by omega
    rw [adjust_heap_eq_left v heq hc hlv (by omega)] at hb
    have hp : HeapFrom (a1.set h1 a1[2 * h1 + 2 - 1]) hole len := by
      refine heapFrom_promote (by omega) h6 (Or.inl e) (by omega) hlv ?_ K1 K2
      intro s y hsc hslt hy
      rcases hsc with rfl | rfl
      · rw [← e, hlv] at hy
        cases hy
        exact lt_irrefl _
      · omega
    refine push_heap_aux_heap hole len v _ _ b (by omega) (by simp; omega)
      (e ▸ InSubtree.left h6) ?_ ?_ ?_ hb
    · intro i c x y hi hcc hclt _ hx hy
      exact hp i c x y hi hcc hclt hx hy
    · intro c y hcc hclt
      omega
    · intro c p y _ hcc hclt
      omega
  · rw [adjust_heap_eq_leaf v heq hc] at hb
    have hp : HeapFrom a1 hole len := by
      by_cases e : h1 = hole
      · intro i c x y hi hcc hclt hx hy
        by_cases e1 : i = hole
        · omega
        · exact K1 i c x y (by omega) hcc hclt hx hy
      · exact K2 e
    refine push_heap_aux_heap hole len v _ _ b h1lt (by omega) h6 ?_ ?_ ?_ hb
    · intro i c x y hi hcc hclt _ hx hy
      exact hp i c x y hi hcc hclt hx hy
    · intro c y hcc hclt
      omega
    · intro c p y _ hcc hclt
      omega


/-- Soundness of the executable heap check. -/
theorem heapFrom_of_heapCheck {a : List α} {lo len : Nat}
    (h : heapCheck a lo len = true) : HeapFrom a lo len := by
  intro i c x y hi hc hclt hx hy
  unfold heapCheck at h
  rw [List.all_eq_true] at h
  have hc' := h c (List.mem_range.2 hclt)
  have e : (c - 1) / 2 = i := by omega
  have e0 : c ≠ 0 := by omega
  have e1 : ¬ i < lo := by omega
  simpa [e, hx, hy, e0, e1] using hc'

/-! ## make_heap -/

theorem make_heap_loop_ok (len : Nat) (k : Nat) :
    ∀ a : List α, k < len → len ≤ a.length →
      ∃ b, __make_heap_loop len a k = some b ∧ b.length = a.length ∧ b.Perm a ∧
        (∀ i, len ≤ i → b[i]? = a[i]?) ∧ (HeapFrom a (k + 1) len → HeapFrom b 0 len) := by
  induction k with
  | zero =>
    intro a hk hl
    obtain ⟨b, hb, hbl, hbp, hbf, _⟩ := adjust_heap_ok a 0 len a[0] (by omega) hl
    refine ⟨b, ?_, hbl, ?_, fun i hi => hbf i hi (by omega), fun H => ?_⟩
    · rw [__make_heap_loop, load_of_lt (by omega)]
      simp only [hb, if_true]
    · rwa [set_getElem_same] at hbp
    · exact adjust_heap_heap hk hl H hb
  | succ k ih =>
    intro a hk hl
    obtain ⟨b, hb, hbl, hbp, hbf, _⟩ := adjust_heap_ok a (k + 1) len a[k + 1] (by omega) hl
    obtain ⟨b2, hb2, hbl2, hbp2, hbf2, hH⟩ := ih b (by omega) (by omega)
    refine ⟨b2, ?_, by omega, ?_, fun i hi => ?_, fun H => ?_⟩
    · rw [__make_heap_loop, load_of_lt (by omega)]
      simp only [hb, Nat.add_one_ne_zero, if_false, Nat.add_sub_cancel]
      exact hb2
    · rw [set_getElem_same] at hbp
      exact hbp2.trans hbp
    · rw [hbf2 i hi, hbf i hi (by omega)]
    · exact hH (adjust_heap_heap hk hl H hb)

/-- `make_heap` over a prefix of the storage: it succeeds, rearranges the
storage, leaves the slots from `last` on alone and orders the prefix. -/
theorem make_heap_ok (a : List α) (last : Nat) (hl : last ≤ a.length) :
    ∃ b, make_heap a last = some b ∧ b.length = a.length ∧ b.Perm a ∧
      (∀ i, last ≤ i → b[i]? = a[i]?) ∧ HeapFrom b 0 last := by
  rw [make_heap, __make_heap]
  by_cases h : last < 2
  · rw [if_pos h]
    refine ⟨a, rfl, rfl, List.Perm.refl _, fun _ _ => rfl, ?_⟩
    intro i c x y _ hc hclt
    omega
  · rw [if_neg h]
    obtain ⟨b, hb, hbl, hbp, hbf, hH⟩ := make_heap_loop_ok last ((last - 2) / 2) a (by omega) hl
    refine ⟨b, hb, hbl, hbp, hbf, hH ?_⟩
    intro i c x y hi hc hclt
    omega


/-- The root of a heap is not below any of its elements. -/
theorem heap_root_max {a : List α} {len : Nat} (H : HeapFrom a 0 len) (hl : len ≤ a.length)
    {m : α} (hm : a[0]? = some m) (i : Nat) :
    ∀ x, i < len → a[i]? = some x → x ≤ m := by
  induction i using Nat.strong_induction_on with
  | _ i ih =>
    intro x hi hx
    rcases Nat.eq_zero_or_pos i with h0 | hpos
    · subst h0
      rw [hm] at hx
      cases hx
      exact le_refl _
    · have hp : a[(i - 1) / 2]? = some a[(i - 1) / 2] := List.getElem?_eq_getElem (by omega)
      have h1 := ih _ (by omega) _ (by omega) hp
      have h2 := H ((i - 1) / 2) i _ x (Nat.zero_le _) (by omega) hi hp hx
      exact le_trans (not_lt.1 h2) h1

/-! ## push_heap -/

/-- `push_heap` over a prefix `[0, last)` of the storage. -/
theorem push_heap_ok (a : List α) (last : Nat) (h1 : 1 ≤ last) (hl : last ≤ a.length) :
    ∃ b, push_heap a last = some b ∧ b.length = a.length ∧ b.Perm a ∧
      (∀ i, last ≤ i → b[i]? = a[i]?) ∧ (HeapFrom a 0 (last - 1) → HeapFrom b 0 last) := by
  obtain ⟨b, hb, hbl, hbp, hbf, _⟩ := push_heap_aux_ok 0 a[last - 1] (last - 1) a (by omega)
  have heq : push_heap a last = some b := by
    rw [push_heap, __push_heap, if_neg (by omega), load_of_lt (by omega)]
    exact hb
  refine ⟨b, heq, hbl, ?_, fun i hi => hbf i (by omega), fun H => ?_⟩
  · rwa [set_getElem_same] at hbp
  · refine push_heap_aux_heap 0 last _ (last - 1) a b (by omega) hl (inSubtree_zero _)
      ?_ ?_ ?_ hb
    · intro i c x y hi hc hclt hne hx hy
      exact H i c x y hi hc (by omega) hx hy
    · intro c y hc hclt
      omega
    · intro c p y _ hc hclt
      omega

/-! ## pop_heap -/

theorem adjust_heap_outside {a : List α} {hole len : Nat} (v : α) (h : len ≤ hole) :
    __adjust_heap a hole len v = store a hole v := by
  rw [adjust_heap_eq_leaf v (adjust_heap_loop_stop (by omega)) (by omega),
    push_heap_aux_stop v (by omega)]

theorem pop_heap_eq {a : List α} {last : Nat} (h1 : 1 ≤ last) (h0 : 0 < a.length)
    (hlast : last - 1 < a.length) :
    pop_heap a last = __adjust_heap (a.set (last - 1) a[0]) 0 (last - 1) a[last - 1] := by
  have hne : ¬ last = 0 := by omega
  unfold pop_heap __pop_heap __pop_heap_aux
  simp only [if_neg hne, load_of_lt hlast, load_of_lt h0, store_of_lt hlast]

/-- `pop_heap` over a prefix `[0, last)` of the storage. -/
theorem pop_heap_ok (a : List α) (last : Nat) (h1 : 1 ≤ last) (hl : last ≤ a.length) :
    ∃ b, pop_heap a last = some b ∧ b.length = a.length ∧ b.Perm a ∧
      (∀ i, last ≤ i → b[i]? = a[i]?) ∧ b[last - 1]? = a[0]? ∧
      (HeapFrom a 0 last → HeapFrom b 0 (last - 1)) := by
  have h0 : 0 < a.length := by omega
  have hlast : last - 1 < a.length := by omega
  have hz : a[0]? = some a[0] := List.getElem?_eq_getElem h0
  obtain ⟨b, hb, hbl, hbp, hbf, _⟩ := adjust_heap_ok (a.set (last - 1) a[0]) 0 (last - 1)
    a[last - 1] (by simpa using h0) (by simp; omega)
  have heq : pop_heap a last = some b := by rw [pop_heap_eq h1 h0 hlast]; exact hb
  refine ⟨b, heq, by simpa using hbl, ?_, fun i hi => ?_, ?_, fun H => ?_⟩
  · have := hbp.trans (set_set_perm a[last - 1] hlast hz)
    rwa [set_getElem_same] at this
  · rw [hbf i (by omega) (by omega), getElem_opt_set hlast, if_neg (by omega)]
  · by_cases hone : last - 1 = 0
    · rw [adjust_heap_outside _ (by omega), store_of_lt (by simpa using h0)] at hb
      cases hb
      rw [getElem_opt_set (by simpa using h0), if_pos hone.symm,
        ← List.getElem?_eq_getElem hlast, hone]
    · rw [hbf _ (Nat.le_refl _) hone, getElem_opt_set hlast, if_pos rfl, hz]
  · by_cases hone : last - 1 = 0
    · intro i c x y _ hc hclt
      omega
    · refine adjust_heap_heap (by omega) (by simp; omega) ?_ hb
      intro i c x y hi hc hclt hx hy
      rw [getElem_opt_set hlast, if_neg (by omega)] at hx hy
      exact H i c x y (Nat.zero_le _) hc (by omega) hx hy


/-! ## sort_heap -/

/-- `sort_heap` over a prefix `[0, last)` of the storage: it succeeds,
rearranges the storage, leaves the slots from `last` on alone and, from a
heap, leaves the prefix in non-decreasing order. -/
theorem sort_heap_ok (last : Nat) :
    ∀ a : List α, last ≤ a.length →
      ∃ b, sort_heap a last = some b ∧ b.length = a.length ∧ b.Perm a ∧
        (∀ i, last ≤ i → b[i]? = a[i]?) ∧
        (HeapFrom a 0 last → ∀ i j x y, i ≤ j → j < last →
          b[i]? = some x → b[j]? = some y → x ≤ y) := by
  induction last with
  | zero =>
    intro a _
    refine ⟨a, ?_, rfl, List.Perm.refl _, fun _ _ => rfl, ?_⟩
    · rw [sort_heap, if_neg (by omega)]
    · intro _ i j x y _ hj
      omega
  | succ n ih =>
    intro a hl
    by_cases h : n + 1 > 1
    · obtain ⟨a1, hpop, hl1, hp1, hf1, hlast, hH1⟩ := pop_heap_ok a (n + 1) (by omega) hl
      obtain ⟨b, hb, hl2, hp2, hf2, hS⟩ := ih a1 (by omega)
      rw [Nat.add_sub_cancel] at hlast hH1
      refine ⟨b, ?_, by omega, hp2.trans hp1, fun i hi => ?_, fun H => ?_⟩
      · rw [sort_heap, if_pos h]
        simp only [hpop, Nat.add_sub_cancel]
        exact hb
      · rw [hf2 i (by omega), hf1 i hi]
      · intro i j x y hij hj hx hy
        by_cases hjn : j < n
        · exact hS (hH1 H) i j x y hij hjn hx hy
        · have hjn' : j = n := by omega
          subst hjn'
          have hm : a[0]? = some y := by rw [← hlast, ← hf2 j (Nat.le_refl _)]; exact hy
          by_cases hin : i = j
          · subst hin
            rw [hx] at hy
            cases hy
            exact le_refl _
          · obtain ⟨k, hk, hkx⟩ := prefix_value_of_frame hp2 hf2 (i := i) (by omega) hx
            obtain ⟨k', hk', hkx'⟩ := prefix_value_of_frame hp1 hf1 (i := k) (by omega) hkx
            exact heap_root_max H hl hm k' x hk' hkx'
    · refine ⟨a, ?_, rfl, List.Perm.refl _, fun _ _ => rfl, ?_⟩
      · rw [sort_heap, if_neg h]
      · intro _ i j x y hij hj hx hy
        have hi0 : i = j := by omega
        subst hi0
        rw [hx] at hy
        cases hy
        exact le_refl _

/-! ## Incremental construction -/

theorem push_prefixes_ok (k : Nat) :
    ∀ a : List α, k ≤ a.length →
      ∃ b, push_prefixes a k = some b ∧ b.length = a.length ∧ b.Perm a ∧
        (∀ i, k ≤ i → b[i]? = a[i]?) ∧ HeapFrom b 0 k := by
  induction k with
  | zero =>
    intro a _
    refine ⟨a, rfl, rfl, List.Perm.refl _, fun _ _ => rfl, ?_⟩
    intro i c x y _ _ hc
    omega
  | succ n ih =>
    intro a hl
    obtain ⟨b1, hb1, hl1, hp1, hf1, hH1⟩ := ih a (by omega)
    obtain ⟨b, hb, hl2, hp2, hf2, hH2⟩ := push_heap_ok b1 (n + 1) (by omega) (by omega)
    refine ⟨b, ?_, by omega, hp2.trans hp1, fun i hi => ?_, hH2 hH1⟩
    · rw [push_prefixes]
      simp only [hb1]
      exact hb
    · rw [hf2 i hi, hf1 i (by omega)]

/-! ## The heap contracts -/

/-- C1: `make_heap` over the whole range returns a sequence of the same
length in which every element is not less than either of its children: for
every index `i` and child index `c ∈ {2i+1, 2i+2}` below the length, the
element at `i` is not less than the element at `c`. -/
theorem make_heap_establishes_heap (a : List α) :
    ∃ b, make_heap a a.length = some b ∧ b.length = a.length ∧
      ∀ i c x y, (c = 2 * i + 1 ∨ c = 2 * i + 2) → c < b.length →
        b[i]? = some x → b[c]? = some y → ¬ x < y := by
  obtain ⟨b, hb, hbl, _, _, hH⟩ := make_heap_ok a a.length (Nat.le_refl _)
  refine ⟨b, hb, hbl, fun i c x y hc hclt hx hy => ?_⟩
  exact hH i c x y (Nat.zero_le _) hc (by omega) hx hy

/-- C2: on a heap of length `n ≥ 1`, `pop_heap` over the whole range puts the
former root `m` at position `n - 1`, `m` is a maximum of the original
elements, positions `[0, n-1)` satisfy the max-heap invariant, and they hold
the original elements with one occurrence of `m` removed. -/
theorem pop_heap_extracts_max (a : List α) (hn : 1 ≤ a.length) (hH : IsMaxHeap a) :
    ∃ b m, pop_heap a a.length = some b ∧ a[0]? = some m ∧ b.length = a.length ∧
      b[a.length - 1]? = some m ∧ (∀ x ∈ a, x ≤ m) ∧
      HeapFrom b 0 (a.length - 1) ∧ (b.take (a.length - 1)).Perm (a.erase m) := by
  obtain ⟨b, hb, hbl, hbp, hbf, hlast, hheap⟩ := pop_heap_ok a a.length hn (Nat.le_refl _)
  have hm : a[0]? = some a[0] := List.getElem?_eq_getElem (by omega)
  refine ⟨b, a[0], hb, hm, hbl, hlast.trans hm, ?_, hheap hH, ?_⟩
  · intro x hx
    obtain ⟨k, hk⟩ := List.mem_iff_getElem?.1 hx
    have hkl : k < a.length := (List.getElem?_eq_some_iff.1 hk).1
    exact heap_root_max hH (Nat.le_refl _) hm k x hkl hk
  · have hsplit : b = b.take (a.length - 1) ++ [a[0]] := by
      have h1 : b.take (a.length - 1 + 1) = b.take (a.length - 1) ++ [a[0]] := by
        rw [List.take_succ, hlast, hm]
        rfl
      rw [← h1, List.take_of_length_le (by omega)]
    have h2 : (a[0] :: b.take (a.length - 1)).Perm a :=
      ((List.perm_append_singleton _ _).symm.trans (hsplit ▸ List.Perm.refl b)).trans hbp
    have h3 := h2.erase a[0]
    rwa [List.erase_cons_head] at h3

/-- C3: when the prefix `[0, n)` of a sequence of length `n + 1` is a heap,
`push_heap` over the whole range returns a heap that is a permutation of the
input. -/
theorem push_heap_restores_heap (a : List α) (hn : 1 ≤ a.length)
    (hH : HeapFrom a 0 (a.length - 1)) :
    ∃ b, push_heap a a.length = some b ∧ IsMaxHeap b ∧ b.Perm a := by
  obtain ⟨b, hb, hbl, hbp, _, hheap⟩ := push_heap_ok a a.length hn (Nat.le_refl _)
  refine ⟨b, hb, ?_, hbp⟩
  rw [IsMaxHeap, hbl]
  exact hheap hH


/-- From a heap, `sort_heap` over the whole range returns the elements in
non-decreasing order. -/
theorem sort_heap_sorted (a : List α) (hH : IsMaxHeap a) :
    ∃ b, sort_heap a a.length = some b ∧ b.length = a.length ∧
      b.Sorted (fun x y => x ≤ y) ∧ b.Perm a := by
  obtain ⟨b, hb, hbl, hbp, _, hS⟩ := sort_heap_ok a.length a (Nat.le_refl _)
  refine ⟨b, hb, hbl, ?_, hbp⟩
  rw [List.Sorted, List.pairwise_iff_getElem]
  intro i j hi hj hij
  exact hS hH i j _ _ (by omega) (by omega) (List.getElem?_eq_getElem hi)
    (List.getElem?_eq_getElem hj)

/-- C4: from a heap, `sort_heap` over the whole range returns a
non-decreasing permutation of the input; on `[9,6,4,1,5,3,2,1]` it returns
`[1,1,2,3,4,5,6,9]`. -/
theorem sort_heap_sorts_heap (a : List α) (hH : IsMaxHeap a) :
    (∃ b, sort_heap a a.length = some b ∧ b.Sorted (fun x y => x ≤ y) ∧ b.Perm a) ∧
      sort_heap ([9, 6, 4, 1, 5, 3, 2, 1] : List Int) 8 = some [1, 1, 2, 3, 4, 5, 6, 9] := by
  obtain ⟨b, hb, _, hs, hp⟩ := sort_heap_sorted a hH
  refine ⟨⟨b, hb, hs, hp⟩, ?_⟩
  simp [sort_heap, pop_heap, __pop_heap, __pop_heap_aux, __adjust_heap, __adjust_heap_loop,
    __push_heap_aux, __push_heap_aux_loop, load, store]

/-- C5: `make_heap` followed by `sort_heap`, both over the whole range, turns
any sequence into a non-decreasing permutation of it. -/
theorem make_heap_then_sort_heap_sorts (a : List α) :
    ∃ h b, make_heap a a.length = some h ∧ sort_heap h h.length = some b ∧
      b.Sorted (fun x y => x ≤ y) ∧ b.Perm a := by
  obtain ⟨h, hh, hhl, hhp, _, hH⟩ := make_heap_ok a a.length (Nat.le_refl _)
  have hheap : IsMaxHeap h := by rw [IsMaxHeap, hhl]; exact hH
  obtain ⟨b, hb, _, hs, hp⟩ := sort_heap_sorted h hheap
  exact ⟨h, b, hh, hb, hs, hp.trans hhp⟩

/-- C6: with every dereference checked against the bounds `[0, n)` of the
range, no operation fails, whatever the order of the elements: `make_heap`
and `sort_heap` on any sequence, `push_heap` and `pop_heap` on any sequence
of length at least one. -/
theorem no_out_of_bounds_access (a : List α) :
    (make_heap a a.length).isSome ∧ (sort_heap a a.length).isSome ∧
      (1 ≤ a.length → (push_heap a a.length).isSome ∧ (pop_heap a a.length).isSome) := by
  obtain ⟨b1, h1, _⟩ := make_heap_ok a a.length (Nat.le_refl _)
  obtain ⟨b2, h2, _⟩ := sort_heap_ok a.length a (Nat.le_refl _)
  refine ⟨by rw [h1]; rfl, by rw [h2]; rfl, fun hn => ?_⟩
  obtain ⟨b3, h3, _⟩ := push_heap_ok a a.length hn (Nat.le_refl _)
  obtain ⟨b4, h4, _⟩ := pop_heap_ok a a.length hn (Nat.le_refl _)
  exact ⟨by rw [h3]; rfl, by rw [h4]; rfl⟩

/-- C7: `make_heap` on `[3,1,4,1,5,9,2,6]` returns `[9,6,4,1,5,3,2,1]`. -/
theorem make_heap_scenario_A :
    make_heap ([3, 1, 4, 1, 5, 9, 2, 6] : List Int) 8 = some [9, 6, 4, 1, 5, 3, 2, 1] := by
  simp [make_heap, __make_heap, __make_heap_loop, __adjust_heap, __adjust_heap_loop,
    __push_heap_aux, __push_heap_aux_loop, load, store]

/-- C8: `pop_heap` on the heap `[9,6,4,1,5,3,2,1]` returns
`[6,5,4,1,1,3,2,9]`. -/
theorem pop_heap_scenario_B :
    pop_heap ([9, 6, 4, 1, 5, 3, 2, 1] : List Int) 8 = some [6, 5, 4, 1, 1, 3, 2, 9] := by
  simp [pop_heap, __pop_heap, __pop_heap_aux, __adjust_heap, __adjust_heap_loop,
    __push_heap_aux, __push_heap_aux_loop, load, store]

/-- C9: on a sequence of length 0 or 1, `make_heap` and `sort_heap` return the
sequence unchanged. -/
theorem make_heap_sort_heap_short (a : List α) (h : a.length ≤ 1) :
    make_heap a a.length = some a ∧ sort_heap a a.length = some a := by
  constructor
  · rw [make_heap, __make_heap, if_pos (by omega)]
  · rw [sort_heap, if_neg (by omega)]

/-- C10: calling `push_heap` on the prefixes of length `1, 2, ..., n` of a
sequence of length `n` leaves a heap that is a permutation of the sequence. -/
theorem push_prefixes_builds_heap (a : List α) :
    ∃ b, push_prefixes a a.length = some b ∧ IsMaxHeap b ∧ b.Perm a := by
  obtain ⟨b, hb, hbl, hbp, _, hH⟩ := push_prefixes_ok a.length a (Nat.le_refl _)
  refine ⟨b, hb, ?_, hbp⟩
  rw [IsMaxHeap, hbl]
  exact hH

/-! ## Instances on concrete sequences -/

/-- Instance of `pop_heap_extracts_max` on the heap `[9,6,4,1,5,3,2,1]`. -/
theorem pop_heap_extracts_max_witness :
    1 ≤ ([9, 6, 4, 1, 5, 3, 2, 1] : List Int).length ∧
      IsMaxHeap ([9, 6, 4, 1, 5, 3, 2, 1] : List Int) ∧
      ∃ b m, pop_heap ([9, 6, 4, 1, 5, 3, 2, 1] : List Int) 8 = some b ∧
        ([9, 6, 4, 1, 5, 3, 2, 1] : List Int)[0]? = some m ∧ b.length = 8 ∧
        b[7]? = some m ∧ (∀ x ∈ ([9, 6, 4, 1, 5, 3, 2, 1] : List Int), x ≤ m) ∧
        HeapFrom b 0 7 ∧ (b.take 7).Perm (([9, 6, 4, 1, 5, 3, 2, 1] : List Int).erase m) :=
  ⟨by decide, heapFrom_of_heapCheck (by decide),
    pop_heap_extracts_max [9, 6, 4, 1, 5, 3, 2, 1] (by decide)
      (heapFrom_of_heapCheck (by decide))⟩

/-- Instance of `push_heap_restores_heap` on `[9,6,4,1,5,3,2]` with `8` appended. -/
theorem push_heap_restores_heap_witness :
    1 ≤ ([9, 6, 4, 1, 5, 3, 2, 8] : List Int).length ∧
      HeapFrom ([9, 6, 4, 1, 5, 3, 2, 8] : List Int) 0 7 ∧
      ∃ b, push_heap ([9, 6, 4, 1, 5, 3, 2, 8] : List Int) 8 = some b ∧ IsMaxHeap b ∧
        b.Perm [9, 6, 4, 1, 5, 3, 2, 8] :=
  ⟨by decide, heapFrom_of_heapCheck (by decide),
    push_heap_restores_heap [9, 6, 4, 1, 5, 3, 2, 8] (by decide)
      (heapFrom_of_heapCheck (by decide))⟩

/-- Instance of `sort_heap_sorts_heap` on the heap `[9,6,4,1,5,3,2,1]`. -/
theorem sort_heap_sorts_heap_witness :
    IsMaxHeap ([9, 6, 4, 1, 5, 3, 2, 1] : List Int) ∧
      ∃ b, sort_heap ([9, 6, 4, 1, 5, 3, 2, 1] : List Int) 8 = some b ∧
        b.Sorted (fun x y => x ≤ y) ∧ b.Perm [9, 6, 4, 1, 5, 3, 2, 1] :=
  ⟨heapFrom_of_heapCheck (by decide),
    (sort_heap_sorts_heap [9, 6, 4, 1, 5, 3, 2, 1] (heapFrom_of_heapCheck (by decide))).1⟩

/-- Instance of `no_out_of_bounds_access` on the unordered `[2,7,1,8,2,8]`. -/
theorem no_out_of_bounds_access_witness :
    1 ≤ ([2, 7, 1, 8, 2, 8] : List Int).length ∧
      (push_heap ([2, 7, 1, 8, 2, 8] : List Int) 6).isSome ∧
      (pop_heap ([2, 7, 1, 8, 2, 8] : List Int) 6).isSome :=
  ⟨by decide, (no_out_of_bounds_access [2, 7, 1, 8, 2, 8]).2.2 (by decide)⟩

/-- Instance of `make_heap_sort_heap_short` on the one-element `[7]`. -/
theorem make_heap_sort_heap_short_witness :
    ([7] : List Int).length ≤ 1 ∧ make_heap ([7] : List Int) 1 = some [7] ∧
      sort_heap ([7] : List Int) 1 = some [7] :=
  ⟨by decide, make_heap_sort_heap_short [7] (by decide)⟩


/-! ## The loop body and the tail of `__adjust_heap` -/

/-- The loop of `__adjust_heap` runs its body while `rchild < len`. -/
theorem adjust_heap_loop_eq_body (len : Nat) (a : List α) (hole rchild : Nat) :
    __adjust_heap_loop len a hole rchild =
      if rchild < len then
        match __adjust_heap_body a hole rchild with
        | none => none
        | some (a1, h1, rc1) => __adjust_heap_loop len a1 h1 rc1
      else some (a, hole, rchild) := by
  rw [__adjust_heap_loop, __adjust_heap_body]
  by_cases h : rchild < len
  · simp only [h, if_true]
    cases load a rchild <;> cases load a (rchild - 1) <;> try rfl
    rename_i r l
    simp only []
    cases load a (if r < l then rchild - 1 else rchild) <;> try rfl
    rename_i c
    simp only []
    cases store a hole c <;> rfl
  · simp only [h, if_false]

/-- `__adjust_heap` is its loop followed by its tail. -/
theorem adjust_heap_eq_tail {len : Nat} {a a1 : List α} {hole h1 rc : Nat} (v : α)
    (hloop : __adjust_heap_loop len a hole (2 * hole + 2) = some (a1, h1, rc)) :
    __adjust_heap a hole len v = __adjust_heap_tail len hole v a1 h1 rc := by
  rw [__adjust_heap, __adjust_heap_tail]
  simp only [hloop]

theorem adjust_heap_body_right {a : List α} {hole rchild : Nat} {r l : α}
    (hr : a[rchild]? = some r) (hl : a[rchild - 1]? = some l) (hlt : ¬ r < l)
    (hh : hole < a.length) :
    __adjust_heap_body a hole rchild = some (a.set hole r, rchild, 2 * (rchild + 1)) := by
  rw [__adjust_heap_body]
  simp only [load_eq, hr, hl, hlt, if_false, store_of_lt hh]

theorem adjust_heap_body_left {a : List α} {hole rchild : Nat} {r l : α}
    (hr : a[rchild]? = some r) (hl : a[rchild - 1]? = some l) (hlt : r < l)
    (hh : hole < a.length) :
    __adjust_heap_body a hole rchild
      = some (a.set hole l, rchild - 1, 2 * (rchild - 1 + 1)) := by
  rw [__adjust_heap_body]
  simp only [load_eq, hr, hl, hlt, if_true, store_of_lt hh]

/-! ## Choice of the child in the descent -/

/-- C12: in an iteration of the descent loop of `__adjust_heap` with both
children of the hole in range, when the children tie (neither is less than
the other) the right child's value is written into the hole, the hole index
becomes `2 * hole + 2` and the loop continues from there; the hole index
becomes that of the left child `2 * hole + 1` only when the right child is
strictly less than the left child. -/
theorem adjust_heap_tie_selects_right (len : Nat) (a : List α) (hole : Nat) (r l : α)
    (hlen : 2 * hole + 2 < len) (hh : hole < a.length)
    (hr : a[2 * hole + 2]? = some r) (hl : a[2 * hole + 1]? = some l) :
    (¬ r < l → ¬ l < r →
      __adjust_heap_body a hole (2 * hole + 2)
          = some (a.set hole r, 2 * hole + 2, 2 * (2 * hole + 2 + 1)) ∧
        __adjust_heap_loop len a hole (2 * hole + 2)
          = __adjust_heap_loop len (a.set hole r) (2 * hole + 2) (2 * (2 * hole + 2 + 1))) ∧
      (∀ a1 rc1, __adjust_heap_body a hole (2 * hole + 2) = some (a1, 2 * hole + 1, rc1) →
        r < l) := by
  have hl' : a[2 * hole + 2 - 1]? = some l := hl
  constructor
  · intro hrl _
    have hb := adjust_heap_body_right hr hl' hrl hh
    refine ⟨hb, ?_⟩
    rw [adjust_heap_loop_eq_body, if_pos hlen, hb]
  · intro a1 rc1 hb
    by_cases hrl : r < l
    · exact hrl
    · rw [adjust_heap_body_right hr hl' hrl hh] at hb
      have h2 := congrArg (fun s => s.2.1) (Option.some.inj hb)
      simp at h2

/-- C13, as the code has it: in an iteration of the descent loop with both
children of the hole in range, the left child is promoted exactly when the
right child is strictly less than it; otherwise the right child is promoted,
in particular when the two children are equal, and the hole then moves to
the right child's index `2 * hole + 2`. -/
theorem adjust_heap_promotes_right_unless_less (a : List α) (hole : Nat) (r l : α)
    (hh : hole < a.length) (hr : a[2 * hole + 2]? = some r)
    (hl : a[2 * hole + 1]? = some l) :
    (r < l → __adjust_heap_body a hole (2 * hole + 2)
        = some (a.set hole l, 2 * hole + 1, 2 * (2 * hole + 1 + 1))) ∧
      (¬ r < l → __adjust_heap_body a hole (2 * hole + 2)
        = some (a.set hole r, 2 * hole + 2, 2 * (2 * hole + 2 + 1))) ∧
      (r = l → __adjust_heap_body a hole (2 * hole + 2)
        = some (a.set hole r, 2 * hole + 2, 2 * (2 * hole + 2 + 1))) := by
  have hl' : a[2 * hole + 2 - 1]? = some l := hl
  refine ⟨fun hrl => ?_, fun hrl => adjust_heap_body_right hr hl' hrl hh, fun he => ?_⟩
  · exact adjust_heap_body_left hr hl' hrl hh
  · exact adjust_heap_body_right hr hl' (he ▸ lt_irrefl r) hh

/-- C13 fails as stated: on `[0,5,5,1,2,3,4]` with the hole at `0` the two
children are both `5`, and the iteration moves the hole to the right child
`2`, not to the left child `1`; the whole `__adjust_heap` then returns
`[5,5,4,1,2,3,0]`. -/
theorem adjust_heap_equal_children_counterexample :
    ([0, 5, 5, 1, 2, 3, 4] : List Int)[2 * 0 + 1]? = some 5 ∧
      ([0, 5, 5, 1, 2, 3, 4] : List Int)[2 * 0 + 2]? = some 5 ∧
      __adjust_heap_body ([0, 5, 5, 1, 2, 3, 4] : List Int) 0 (2 * 0 + 2)
        = some ([5, 5, 5, 1, 2, 3, 4], 2, 6) ∧
      (¬ ∃ a1 rc1, __adjust_heap_body ([0, 5, 5, 1, 2, 3, 4] : List Int) 0 (2 * 0 + 2)
        = some (a1, 2 * 0 + 1, rc1)) ∧
      __adjust_heap ([0, 5, 5, 1, 2, 3, 4] : List Int) 0 7 0 = some [5, 5, 4, 1, 2, 3, 0] := by
  have hb : __adjust_heap_body ([0, 5, 5, 1, 2, 3, 4] : List Int) 0 (2 * 0 + 2)
      = some ([5, 5, 5, 1, 2, 3, 4], 2, 6) := by
    simp [__adjust_heap_body, load, store]
  refine ⟨rfl, rfl, hb, ?_, ?_⟩
  · rintro ⟨a1, rc1, h⟩
    rw [hb] at h
    have h2 := congrArg (fun s => s.2.1) (Option.some.inj h)
    simp at h2
  · simp [__adjust_heap, __adjust_heap_loop, __push_heap_aux, __push_heap_aux_loop, load, store]

/-- Instance of `adjust_heap_tie_selects_right` on `[0,5,5,1,2,3,4]`, whose
root has the two children `5` and `5`. -/
theorem adjust_heap_tie_selects_right_witness :
    2 * 0 + 2 < 7 ∧ 0 < ([0, 5, 5, 1, 2, 3, 4] : List Int).length ∧
      ([0, 5, 5, 1, 2, 3, 4] : List Int)[2 * 0 + 2]? = some 5 ∧
      ([0, 5, 5, 1, 2, 3, 4] : List Int)[2 * 0 + 1]? = some 5 ∧
      (__adjust_heap_body ([0, 5, 5, 1, 2, 3, 4] : List Int) 0 (2 * 0 + 2)
          = some (([0, 5, 5, 1, 2, 3, 4] : List Int).set 0 5, 2 * 0 + 2, 2 * (2 * 0 + 2 + 1)) ∧
        __adjust_heap_loop 7 ([0, 5, 5, 1, 2, 3, 4] : List Int) 0 (2 * 0 + 2)
          = __adjust_heap_loop 7 (([0, 5, 5, 1, 2, 3, 4] : List Int).set 0 5) (2 * 0 + 2)
              (2 * (2 * 0 + 2 + 1))) :=
  ⟨by decide, by decide, rfl, rfl,
    (adjust_heap_tie_selects_right 7 [0, 5, 5, 1, 2, 3, 4] 0 5 5 (by decide) (by decide)
      rfl rfl).1 (by decide) (by decide)⟩

/-- Instance of `adjust_heap_promotes_right_unless_less` on `[0,6,5]`, where
the right child `5` is less than the left child `6`. -/
theorem adjust_heap_promotes_right_unless_less_witness :
    0 < ([0, 6, 5] : List Int).length ∧ ([0, 6, 5] : List Int)[2 * 0 + 2]? = some 5 ∧
      ([0, 6, 5] : List Int)[2 * 0 + 1]? = some 6 ∧ (5 : Int) < 6 ∧
      __adjust_heap_body ([0, 6, 5] : List Int) 0 (2 * 0 + 2)
        = some (([0, 6, 5] : List Int).set 0 6, 2 * 0 + 1, 2 * (2 * 0 + 1 + 1)) :=
  ⟨by decide, rfl, rfl, by decide,
    (adjust_heap_promotes_right_unless_less [0, 6, 5] 0 5 6 (by decide) rfl rfl).1
      (by decide)⟩


/-! ## Multiset and frame of `__adjust_heap` -/

/-- Overwriting slot `i` replaces one occurrence of the old value by the new
one. -/
theorem set_perm_cons_erase {a : List α} {i : Nat} (h : i < a.length) (v : α) :
    (a.set i v).Perm (v :: a.erase a[i]) := by
  rw [List.perm_iff_count]
  intro x
  have h1 := count_set_add h v x
  have hpos : a[i] = x → 0 < a.count x := fun e => by
    rw [List.count_pos_iff]
    exact e ▸ List.getElem_mem h
  rw [List.count_cons, List.count_erase]
  by_cases hx : a[i] = x
  · have := hpos hx
    by_cases hv : v = x <;> simp only [hx, hv, beq_self_eq_true, if_true] at h1 ⊢ <;>
      simp [hv] at h1 ⊢ <;> omega
  · by_cases hv : v = x <;> simp [hx, hv] at h1 ⊢ <;> omega

/-- C14: key lemma of `__adjust_heap`.  When every node after `h` is not less
than its children below `len`, the call succeeds, every node from `h` on is
not less than its children below `len` afterwards, and the first `len` slots
hold the old ones with one occurrence of the old `a[h]` replaced by `v`. -/
theorem adjust_heap_key_lemma (a : List α) (h len : Nat) (v x : α) (hl : len ≤ a.length)
    (hh : h < len) (hx : a[h]? = some x) (H : HeapFrom a (h + 1) len) :
    ∃ b, __adjust_heap a h len v = some b ∧ b.length = a.length ∧ HeapFrom b h len ∧
      (b.take len).Perm (v :: (a.take len).erase x) := by
  obtain ⟨b, hb, hbl, hbp, hbf, _⟩ := adjust_heap_ok a h len v (by omega) hl
  refine ⟨b, hb, hbl, adjust_heap_heap hh hl H hb, ?_⟩
  have hfr : ∀ i, len ≤ i → b[i]? = (a.set h v)[i]? := by
    intro i hi
    rw [hbf i hi (by omega), getElem_opt_set (by omega), if_neg (by omega)]
  have h1 := take_perm_of_frame hbp hfr
  rw [List.set_take] at h1
  have hlt : h < (a.take len).length := by
    rw [List.length_take]
    omega
  have hget : (a.take len)[h] = x := by
    have h2 : (a.take len)[h]? = some x := by
      rw [List.getElem?_take, if_pos hh]
      exact hx
    rw [List.getElem?_eq_getElem hlt] at h2
    exact Option.some.inj h2
  have h3 := set_perm_cons_erase hlt v
  rw [hget] at h3
  exact h1.trans h3

/-- C15: frame of `__adjust_heap`, without any heap precondition.  The call
succeeds and every slot with index below `h`, at or above `len`, or outside
the subtree rooted at `h` keeps its value: only `h` and its descendants
below `len` can change. -/
theorem adjust_heap_frame (a : List α) (h len : Nat) (v : α) (hl : len ≤ a.length)
    (hh : h < len) :
    ∃ b, __adjust_heap a h len v = some b ∧ b.length = a.length ∧
      (∀ i, (i < h ∨ len ≤ i ∨ ¬ InSubtree h i) → b[i]? = a[i]?) ∧
      (∀ i, b[i]? ≠ a[i]? → InSubtree h i ∧ i < len) := by
  obtain ⟨b, hb, hbl, _, hbf, hbs⟩ := adjust_heap_ok a h len v (by omega) hl
  have hfr : ∀ i, (i < h ∨ len ≤ i ∨ ¬ InSubtree h i) → b[i]? = a[i]? := by
    intro i hi
    rcases hi with h1 | h1 | h1
    · exact hbs i (fun hs => by have := hs.le; omega)
    · exact hbf i h1 (by omega)
    · exact hbs i h1
  refine ⟨b, hb, hbl, hfr, fun i hne => ?_⟩
  constructor
  · by_contra hs
    exact hne (hfr i (Or.inr (Or.inr hs)))
  · by_contra hlt
    exact hne (hfr i (Or.inr (Or.inl (by omega))))

/-- C16: on every input, heap or not, every operation returns a
rearrangement of its input of the same length: `make_heap` and `sort_heap`
on any sequence, `push_heap` and `pop_heap` on any sequence of length at
least one. -/
theorem operations_preserve_multiset (a : List α) :
    (∃ b, make_heap a a.length = some b ∧ b.length = a.length ∧ b.Perm a) ∧
      (∃ b, sort_heap a a.length = some b ∧ b.length = a.length ∧ b.Perm a) ∧
      (1 ≤ a.length →
        (∃ b, push_heap a a.length = some b ∧ b.length = a.length ∧ b.Perm a) ∧
        (∃ b, pop_heap a a.length = some b ∧ b.length = a.length ∧ b.Perm a)) := by
  obtain ⟨b1, h1, l1, p1, _⟩ := make_heap_ok a a.length (Nat.le_refl _)
  obtain ⟨b2, h2, l2, p2, _⟩ := sort_heap_ok a.length a (Nat.le_refl _)
  refine ⟨⟨b1, h1, l1, p1⟩, ⟨b2, h2, l2, p2⟩, fun hn => ?_⟩
  obtain ⟨b3, h3, l3, p3, _⟩ := push_heap_ok a a.length hn (Nat.le_refl _)
  obtain ⟨b4, h4, l4, p4, _⟩ := pop_heap_ok a a.length hn (Nat.le_refl _)
  exact ⟨⟨b3, h3, l3, p3⟩, ⟨b4, h4, l4, p4⟩⟩

/-! ## Ties in sift-up -/

/-- C17: `push_heap` returns a sequence of length `n ≥ 1` unchanged when
`n = 1` or the parent `a[(n-2)/2]` of the last element is not less than it;
and, in general, when the parent of the hole is not less than the value,
sift-up moves nothing and writes the value into the hole. -/
theorem push_heap_no_move_on_tie (a : List α) (hn : 1 ≤ a.length)
    (h : a.length = 1 ∨
      ∀ p x, a[(a.length - 2) / 2]? = some p → a[a.length - 1]? = some x → ¬ p < x) :
    push_heap a a.length = some a ∧
      ∀ (s : List α) (hole top : Nat) (v p : α), hole > top →
        s[(hole - 1) / 2]? = some p → ¬ p < v →
        __push_heap_aux s hole top v = store s hole v := by
  refine ⟨?_, fun s hole top v p ht hp hlt => push_heap_aux_stay ht hp hlt⟩
  have hlast : a.length - 1 < a.length := by omega
  rw [push_heap, __push_heap, if_neg (by omega), load_of_lt hlast]
  simp only []
  by_cases hone : a.length - 1 > 0
  · have e : (a.length - 1 - 1) / 2 = (a.length - 2) / 2 := by
      rw [Nat.sub_sub]
    have hp : a[(a.length - 2) / 2]? = some a[(a.length - 2) / 2] :=
      List.getElem?_eq_getElem (by omega)
    have hnlt : ¬ a[(a.length - 2) / 2] < a[a.length - 1] := by
      rcases h with h | h
      · omega
      · exact h _ _ hp (List.getElem?_eq_getElem hlast)
    have hld : load a ((a.length - 1 - 1) / 2) = some a[(a.length - 2) / 2] := by
      rw [load_eq, e]
      exact hp
    rw [push_heap_aux_stay hone hld hnlt, store_of_lt hlast, set_getElem_same]
  · rw [push_heap_aux_stop _ hone, store_of_lt hlast, set_getElem_same]

/-! ## Termination -/

theorem adjust_heap_body_rchild {a a1 : List α} {hole rchild h1 rc1 : Nat}
    (hb : __adjust_heap_body a hole rchild = some (a1, h1, rc1)) :
    rc1 = 2 * (h1 + 1) ∧ (h1 = rchild ∨ h1 = rchild - 1) := by
  rw [__adjust_heap_body] at hb
  cases hr : load a rchild with
  | none => simp [hr] at hb
  | some r =>
    cases hl : load a (rchild - 1) with
    | none => simp [hr, hl] at hb
    | some l =>
      simp only [hr, hl] at hb
      cases hc : load a (if r < l then rchild - 1 else rchild) with
      | none => simp [hc] at hb
      | some c =>
        simp only [hc] at hb
        cases hs : store a hole c with
        | none => simp [hs] at hb
        | some a2 =>
          simp only [hs, Option.some.injEq, Prod.mk.injEq] at hb
          obtain ⟨_, h2, h3⟩ := hb
          refine ⟨by omega, ?_⟩
          by_cases hlt : r < l
          · rw [if_pos hlt] at h2
            exact Or.inr h2.symm
          · rw [if_neg hlt] at h2
            exact Or.inl h2.symm

/-- C11: every loop of the heap algorithms makes progress on a natural-number
measure and stops.  The sift-up loop continues from the strictly smaller hole
index `(holeIndex - 1) / 2` and stops once `holeIndex ≤ topIndex` or the
parent is not less than the value; the descent loop of `__adjust_heap`
continues with a strictly larger `rchild` and stops once `rchild ≥ len`; the
loop of `__make_heap` continues with `holeIndex - 1` and stops at `0`; the
loop of `sort_heap` continues with `last - 1` and stops once `last ≤ 1`.
Accordingly every operation returns a result on every sequence, heap or not
(`push_heap` and `pop_heap` on length at least one). -/
theorem heap_loops_terminate (a : List α) (holeIndex topIndex rchild len last : Nat)
    (value : α) :
    ((¬ holeIndex > topIndex →
        __push_heap_aux_loop a holeIndex topIndex value = some (a, holeIndex)) ∧
      (∀ p, holeIndex > topIndex → load a ((holeIndex - 1) / 2) = some p → ¬ p < value →
        __push_heap_aux_loop a holeIndex topIndex value = some (a, holeIndex)) ∧
      (∀ p a1, holeIndex > topIndex → load a ((holeIndex - 1) / 2) = some p → p < value →
        store a holeIndex p = some a1 →
        (holeIndex - 1) / 2 < holeIndex ∧
          __push_heap_aux_loop a holeIndex topIndex value
            = __push_heap_aux_loop a1 ((holeIndex - 1) / 2) topIndex value)) ∧
    ((¬ rchild < len →
        __adjust_heap_loop len a holeIndex rchild = some (a, holeIndex, rchild)) ∧
      (∀ a1 h1 rc1, rchild < len →
        __adjust_heap_body a holeIndex rchild = some (a1, h1, rc1) →
        rchild < rc1 ∧
          __adjust_heap_loop len a holeIndex rchild = __adjust_heap_loop len a1 h1 rc1)) ∧
    (∀ v a1, load a holeIndex = some v → __adjust_heap a holeIndex len v = some a1 →
      (holeIndex = 0 → __make_heap_loop len a holeIndex = some a1) ∧
      (holeIndex ≠ 0 → holeIndex - 1 < holeIndex ∧
        __make_heap_loop len a holeIndex = __make_heap_loop len a1 (holeIndex - 1))) ∧
    ((¬ last > 1 → sort_heap a last = some a) ∧
      (∀ a1, last > 1 → pop_heap a last = some a1 →
        last - 1 < last ∧ sort_heap a last = sort_heap a1 (last - 1))) ∧
    ((make_heap a a.length).isSome ∧ (sort_heap a a.length).isSome ∧
      (1 ≤ a.length → (push_heap a a.length).isSome ∧ (pop_heap a a.length).isSome)) := by
  refine ⟨⟨?_, ?_, ?_⟩, ⟨?_, ?_⟩, ?_, ⟨?_, ?_⟩, ?_, ?_, ?_⟩
  · intro h
    rw [__push_heap_aux_loop]
    simp [h]
  · intro p h hp hlt
    rw [__push_heap_aux_loop]
    simp [h, hp, hlt]
  · intro p a1 h hp hlt hs
    refine ⟨by omega, ?_⟩
    rw [__push_heap_aux_loop]
    simp only [h, hp, hlt, hs, if_true]
  · intro h
    exact adjust_heap_loop_stop h
  · intro a1 h1 rc1 h hb
    obtain ⟨e1, e2⟩ := adjust_heap_body_rchild hb
    refine ⟨by omega, ?_⟩
    rw [adjust_heap_loop_eq_body, if_pos h, hb]
  · intro v a1 hv ha
    constructor
    · intro h0
      subst h0
      rw [__make_heap_loop]
      simp only [hv, ha, if_true]
    · intro h0
      refine ⟨by omega, ?_⟩
      rw [__make_heap_loop]
      simp only [hv, ha, h0, if_false]
  · intro h
    rw [sort_heap, if_neg h]
  · intro a1 h hp
    refine ⟨by omega, ?_⟩
    rw [sort_heap, if_pos h]
    simp only [hp]
  · obtain ⟨b, hb, _⟩ := make_heap_ok a a.length (Nat.le_refl _)
    rw [hb]; rfl
  · obtain ⟨b, hb, _⟩ := sort_heap_ok a.length a (Nat.le_refl _)
    rw [hb]; rfl
  · intro hn
    obtain ⟨b3, h3, _⟩ := push_heap_ok a a.length hn (Nat.le_refl _)
    obtain ⟨b4, h4, _⟩ := pop_heap_ok a a.length hn (Nat.le_refl _)
    exact ⟨by rw [h3]; rfl, by rw [h4]; rfl⟩

/-- Instance of `heap_loops_terminate`: one sift-up iteration on
`[3,1,4,1,5]` with the hole at `4` and the value `9`. -/
theorem heap_loops_terminate_witness :
    4 > 0 ∧ load ([3, 1, 4, 1, 5] : List Int) ((4 - 1) / 2) = some 1 ∧ (1 : Int) < 9 ∧
      store ([3, 1, 4, 1, 5] : List Int) 4 1 = some [3, 1, 4, 1, 1] ∧
      ((4 - 1) / 2 < 4 ∧
        __push_heap_aux_loop ([3, 1, 4, 1, 5] : List Int) 4 0 9
          = __push_heap_aux_loop [3, 1, 4, 1, 1] ((4 - 1) / 2) 0 9) :=
  ⟨by decide, rfl, by decide, rfl,
    (heap_loops_terminate [3, 1, 4, 1, 5] 4 0 2 5 5 9).1.2.2 1 [3, 1, 4, 1, 1]
      (by decide) rfl (by decide) rfl⟩

/-- Instance of `adjust_heap_key_lemma` on `[2,9,8,4,5,6,7]` with the hole at
the root and the value `3`. -/
theorem adjust_heap_key_lemma_witness :
    7 ≤ ([2, 9, 8, 4, 5, 6, 7] : List Int).length ∧ 0 < 7 ∧
      ([2, 9, 8, 4, 5, 6, 7] : List Int)[0]? = some 2 ∧
      HeapFrom ([2, 9, 8, 4, 5, 6, 7] : List Int) (0 + 1) 7 ∧
      ∃ b, __adjust_heap ([2, 9, 8, 4, 5, 6, 7] : List Int) 0 7 3 = some b ∧
        b.length = ([2, 9, 8, 4, 5, 6, 7] : List Int).length ∧ HeapFrom b 0 7 ∧
        (b.take 7).Perm (3 :: (([2, 9, 8, 4, 5, 6, 7] : List Int).take 7).erase 2) :=
  ⟨by decide, by decide, rfl, heapFrom_of_heapCheck (by decide),
    adjust_heap_key_lemma [2, 9, 8, 4, 5, 6, 7] 0 7 3 2 (by decide) (by decide) rfl
      (heapFrom_of_heapCheck (by decide))⟩

/-- Instance of `adjust_heap_frame` on `[1,2,3,4,5,6,7]` with the hole at `1`,
`len = 6` and the value `0`. -/
theorem adjust_heap_frame_witness :
    6 ≤ ([1, 2, 3, 4, 5, 6, 7] : List Int).length ∧ 1 < 6 ∧
      ∃ b, __adjust_heap ([1, 2, 3, 4, 5, 6, 7] : List Int) 1 6 0 = some b ∧
        b.length = ([1, 2, 3, 4, 5, 6, 7] : List Int).length ∧
        (∀ i, (i < 1 ∨ 6 ≤ i ∨ ¬ InSubtree 1 i) →
          b[i]? = ([1, 2, 3, 4, 5, 6, 7] : List Int)[i]?) ∧
        (∀ i, b[i]? ≠ ([1, 2, 3, 4, 5, 6, 7] : List Int)[i]? → InSubtree 1 i ∧ i < 6) :=
  ⟨by decide, by decide,
    adjust_heap_frame [1, 2, 3, 4, 5, 6, 7] 1 6 0 (by decide) (by decide)⟩

/-- Instance of `operations_preserve_multiset` on the unordered `[2,7,1,8]`. -/
theorem operations_preserve_multiset_witness :
    1 ≤ ([2, 7, 1, 8] : List Int).length ∧
      (∃ b, push_heap ([2, 7, 1, 8] : List Int) 4 = some b ∧ b.length = 4 ∧
        b.Perm [2, 7, 1, 8]) ∧
      (∃ b, pop_heap ([2, 7, 1, 8] : List Int) 4 = some b ∧ b.length = 4 ∧
        b.Perm [2, 7, 1, 8]) :=
  ⟨by decide, (operations_preserve_multiset [2, 7, 1, 8]).2.2 (by decide)⟩

/-- Instance of `push_heap_no_move_on_tie` on `[4,7,2,7]`, whose last element
`7` ties with its parent `7`. -/
theorem push_heap_no_move_on_tie_witness :
    1 ≤ ([4, 7, 2, 7] : List Int).length ∧
      (([4, 7, 2, 7] : List Int).length = 1 ∨
        ∀ p x, ([4, 7, 2, 7] : List Int)[(([4, 7, 2, 7] : List Int).length - 2) / 2]? = some p →
          ([4, 7, 2, 7] : List Int)[([4, 7, 2, 7] : List Int).length - 1]? = some x →
          ¬ p < x) ∧
      push_heap ([4, 7, 2, 7] : List Int) 4 = some [4, 7, 2, 7] :=
  have hyp : ∀ p x : Int,
      ([4, 7, 2, 7] : List Int)[(([4, 7, 2, 7] : List Int).length - 2) / 2]? = some p →
      ([4, 7, 2, 7] : List Int)[([4, 7, 2, 7] : List Int).length - 1]? = some x →
      ¬ p < x := by
    intro p x hp hx
    simp at hp hx
    subst hp hx
    decide
  ⟨by decide, Or.inr hyp, (push_heap_no_move_on_tie [4, 7, 2, 7] (by decide) (Or.inr hyp)).1⟩


/-! ## `make_heap` on a heap -/

/-- Sift-up never reads the slot of the hole it starts from. -/
theorem push_heap_aux_set_hole {a : List α} {h : Nat} (top : Nat) (v x : α)
    (hh : h < a.length) :
    __push_heap_aux (a.set h x) h top v = __push_heap_aux a h top v := by
  have hh' : h < (a.set h x).length := by simpa using hh
  by_cases hgt : h > top
  · have hp : a[(h - 1) / 2]? = some a[(h - 1) / 2] := List.getElem?_eq_getElem (by omega)
    have hp' : load (a.set h x) ((h - 1) / 2) = some a[(h - 1) / 2] := by
      rw [load_eq, getElem_opt_set hh, if_neg (by omega)]
      exact hp
    by_cases hlt : a[(h - 1) / 2] < v
    · rw [push_heap_aux_step hgt hp' hlt (store_of_lt hh' _),
        push_heap_aux_step hgt hp hlt (store_of_lt hh _), List.set_set]
    · rw [push_heap_aux_stay hgt hp' hlt, push_heap_aux_stay hgt hp hlt, store_of_lt hh',
        store_of_lt hh, List.set_set]
  · rw [push_heap_aux_stop v hgt, push_heap_aux_stop v hgt, store_of_lt hh', store_of_lt hh,
      List.set_set]

/-- One level of the return trip: after a child value `x` was promoted into
the hole `h`, sifting `v` up from the child gives what sifting `v` up from
`h` gives, when `v` is not below the old value `y` at `h`, `y` is not below
`x`, and the parent of `h` holds `y`. -/
theorem push_heap_aux_rise {a : List α} {h c top : Nat} {v x y : α}
    (hc : c = 2 * h + 1 ∨ c = 2 * h + 2) (hx : a[c]? = some x) (hy : a[h]? = some y)
    (hvy : ¬ v < y) (hyx : ¬ y < x) (hto : top ≤ h)
    (hpar : h ≠ top → a[(h - 1) / 2]? = some y) :
    __push_heap_aux (a.set h x) c top v = __push_heap_aux a h top v := by
  have hcl : c < a.length := (List.getElem?_eq_some_iff.1 hx).1
  have hh : h < a.length := (List.getElem?_eq_some_iff.1 hy).1
  have hgt : c > top := by omega
  have hpc : (c - 1) / 2 = h := by omega
  have hx' : (a.set h x)[c]? = some x := by
    rw [getElem_opt_set hh, if_neg (by omega)]
    exact hx
  have hload : load (a.set h x) ((c - 1) / 2) = some x := by
    rw [load_eq, hpc, getElem_opt_set hh, if_pos rfl]
  by_cases hlt : x < v
  · rw [push_heap_aux_step hgt hload hlt (store_of_lt (by simpa using hcl) _),
      set_eq_self_of_getElem hx', hpc]
    exact push_heap_aux_set_hole top v x hh
  · have hxv : x = v := le_antisymm (le_trans (not_lt.1 hyx) (not_lt.1 hvy)) (not_lt.1 hlt)
    have hyv : y = v := le_antisymm (not_lt.1 hvy) (hxv ▸ not_lt.1 hyx)
    subst hxv
    subst hyv
    rw [push_heap_aux_stay hgt hload hlt, store_of_lt (by simpa using hcl),
      set_eq_self_of_getElem hx']
    by_cases hgt2 : h > top
    · rw [push_heap_aux_stay hgt2 (hpar (by omega)) (lt_irrefl _), store_of_lt hh]
    · rw [push_heap_aux_stop _ hgt2, store_of_lt hh]

/-- The tail of `__adjust_heap` from a hole `h` whose value is not above `v`. -/
theorem adjust_heap_tail_stop {len k : Nat} {v : α} {a : List α} {h : Nat}
    (hh : h < len) (hl : len ≤ a.length) (hk : k ≤ h)
    (H : HeapFrom a h len) (hv : ∀ y, a[h]? = some y → ¬ v < y)
    (hpar : h ≠ k → a[(h - 1) / 2]? = a[h]?) :
    __adjust_heap_tail len k v a h (2 * h + 2) = __push_heap_aux a h k v := by
  have hy : a[h]? = some a[h] := List.getElem?_eq_getElem (by omega)
  have hpar' : h ≠ k → a[(h - 1) / 2]? = some a[h] := fun hne => (hpar hne).trans hy
  have e : 2 * h + 2 - 1 = 2 * h + 1 := by omega
  by_cases hc : 2 * h + 2 = len
  · have hlv : a[2 * h + 2 - 1]? = some a[2 * h + 2 - 1] :=
      List.getElem?_eq_getElem (by omega)
    have hedge := H h (2 * h + 2 - 1) _ _ (Nat.le_refl _) (Or.inl e) (by omega) hy hlv
    rw [__adjust_heap_tail, if_pos hc, load_eq, hlv]
    simp only [store_of_lt (show h < a.length by omega)]
    exact push_heap_aux_rise (Or.inl e) hlv hy (hv _ hy) hedge hk hpar'
  · rw [__adjust_heap_tail, if_neg hc]

/-- On an ordered subtree whose values are not above `v`, the descent followed
by the tail of `__adjust_heap` gives what sifting `v` up from the starting
hole gives. -/
theorem adjust_heap_tail_undo (len k : Nat) (v : α) (n : Nat) :
    ∀ (a : List α) (h : Nat) (a1 : List α) (h1 rc1 : Nat), len - (2 * h + 2) ≤ n →
      h < len → len ≤ a.length → k ≤ h → HeapFrom a h len →
      (∀ y, a[h]? = some y → ¬ v < y) → (h ≠ k → a[(h - 1) / 2]? = a[h]?) →
      __adjust_heap_loop len a h (2 * h + 2) = some (a1, h1, rc1) →
      __adjust_heap_tail len k v a1 h1 rc1 = __push_heap_aux a h k v := by
  induction n with
  | zero =>
    intro a h a1 h1 rc1 hn hh hl hk H hv hpar heq
    rw [adjust_heap_loop_stop (by omega)] at heq
    cases heq
    exact adjust_heap_tail_stop hh hl hk H hv hpar
  | succ n ih =>
    intro a h a1 h1 rc1 hn hh hl hk H hv hpar heq
    have hy : a[h]? = some a[h] := List.getElem?_eq_getElem (by omega)
    have hpar' : h ≠ k → a[(h - 1) / 2]? = some a[h] := fun hne => (hpar hne).trans hy
    have e : 2 * h + 2 - 1 = 2 * h + 1 := by omega
    by_cases hr : 2 * h + 2 < len
    · have hrv : a[2 * h + 2]? = some a[2 * h + 2] := List.getElem?_eq_getElem (by omega)
      have hlv : a[2 * h + 2 - 1]? = some a[2 * h + 2 - 1] :=
        List.getElem?_eq_getElem (by omega)
      by_cases hlt : a[2 * h + 2] < a[2 * h + 2 - 1]
      · rw [adjust_heap_loop_left hr hrv hlv hlt (by omega)] at heq
        have hedge := H h (2 * h + 2 - 1) _ _ (Nat.le_refl _) (Or.inl e) (by omega) hy hlv
        rw [← push_heap_aux_rise (Or.inl e) hlv hy (hv _ hy) hedge hk hpar']
        refine ih _ _ a1 h1 rc1 (by omega) (by omega) (by simpa using hl) (by omega) ?_ ?_ ?_ heq
        · intro i c x y hi hc hclt hx hy'
          rw [getElem_opt_set (by omega), if_neg (by omega)] at hx hy'
          exact H i c x y (by omega) hc hclt hx hy'
        · intro y hy'
          rw [getElem_opt_set (by omega), if_neg (by omega), hlv] at hy'
          cases hy'
          exact fun hlt' => hv _ hy (lt_of_lt_of_le hlt' (not_lt.1 hedge))
        · intro _
          have hp : (2 * h + 2 - 1 - 1) / 2 = h := by omega
          rw [hp, getElem_opt_set (by omega), if_pos rfl, getElem_opt_set (by omega),
            if_neg (by omega), hlv]
      · rw [adjust_heap_loop_right hr hrv hlv hlt (by omega)] at heq
        have hedge := H h (2 * h + 2) _ _ (Nat.le_refl _) (Or.inr rfl) hr hy hrv
        rw [← push_heap_aux_rise (Or.inr rfl) hrv hy (hv _ hy) hedge hk hpar']
        refine ih _ _ a1 h1 rc1 (by omega) (by omega) (by simpa using hl) (by omega) ?_ ?_ ?_ heq
        · intro i c x y hi hc hclt hx hy'
          rw [getElem_opt_set (by omega), if_neg (by omega)] at hx hy'
          exact H i c x y (by omega) hc hclt hx hy'
        · intro y hy'
          rw [getElem_opt_set (by omega), if_neg (by omega), hrv] at hy'
          cases hy'
          exact fun hlt' => hv _ hy (lt_of_lt_of_le hlt' (not_lt.1 hedge))
        · intro _
          have hp : (2 * h + 2 - 1) / 2 = h := by omega
          rw [hp, getElem_opt_set (by omega), if_pos rfl, getElem_opt_set (by omega),
            if_neg (by omega), hrv]
    · rw [adjust_heap_loop_stop hr] at heq
      cases heq
      exact adjust_heap_tail_stop hh hl hk H hv hpar

/-- `__adjust_heap` with the value already at the hole leaves an ordered
subtree as it is. -/
theorem adjust_heap_of_heap {a : List α} {k len : Nat} {v : α} (hk : k < len)
    (hl : len ≤ a.length) (hv : a[k]? = some v) (H : HeapFrom a k len) :
    __adjust_heap a k len v = some a := by
  obtain ⟨a1, h1, heq, _⟩ :=
    adjust_heap_loop_ok len k _ a k (Nat.le_refl _) (by omega) hl InSubtree.root
  rw [adjust_heap_eq_tail v heq,
    adjust_heap_tail_undo len k v _ a k a1 h1 _ (Nat.le_refl _) hk hl (Nat.le_refl _) H
      (fun y hy => by rw [hv] at hy; cases hy; exact lt_irrefl _) (fun hne => absurd rfl hne)
      heq,
    push_heap_aux_stop v (by omega), store_of_lt (by omega), set_eq_self_of_getElem hv]

theorem make_heap_loop_of_heap (len : Nat) (a : List α) (hl : len ≤ a.length)
    (H : HeapFrom a 0 len) (k : Nat) : k < len → __make_heap_loop len a k = some a := by
  induction k with
  | zero =>
    intro hk
    rw [__make_heap_loop, load_of_lt (by omega)]
    simp only [adjust_heap_of_heap hk hl (List.getElem?_eq_getElem (by omega)) H, if_true]
  | succ k ih =>
    intro hk
    rw [__make_heap_loop, load_of_lt (by omega)]
    simp only [adjust_heap_of_heap hk hl (List.getElem?_eq_getElem (by omega))
      (H.mono (Nat.zero_le _)), Nat.add_one_ne_zero, if_false, Nat.add_sub_cancel]
    exact ih (by omega)

theorem make_heap_of_heap (a : List α) (H : IsMaxHeap a) : make_heap a a.length = some a := by
  rw [make_heap, __make_heap]
  by_cases h : a.length < 2
  · rw [if_pos h]
  · rw [if_neg h]
    exact make_heap_loop_of_heap a.length a (Nat.le_refl _) H _ (by omega)

/-- C18: for linearly ordered elements `make_heap` over the whole range
returns a heap unchanged, and so `make_heap` is idempotent: applied to its own
result it returns that result. -/
theorem make_heap_idempotent (a : List α) :
    (IsMaxHeap a → make_heap a a.length = some a) ∧
      ∃ b, make_heap a a.length = some b ∧ make_heap b b.length = some b := by
  refine ⟨make_heap_of_heap a, ?_⟩
  obtain ⟨b, hb, hbl, _, _, hH⟩ := make_heap_ok a a.length (Nat.le_refl _)
  refine ⟨b, hb, make_heap_of_heap b ?_⟩
  rw [IsMaxHeap, hbl]
  exact hH

/-- Instance of `make_heap_idempotent` on the heap `[9,9,4,9,1,4,4]`, which
has ties along its edges. -/
theorem make_heap_idempotent_witness :
    IsMaxHeap ([9, 9, 4, 9, 1, 4, 4] : List Int) ∧
      make_heap ([9, 9, 4, 9, 1, 4, 4] : List Int) 7 = some [9, 9, 4, 9, 1, 4, 4] :=
  ⟨heapFrom_of_heapCheck (by decide),
    (make_heap_idempotent [9, 9, 4, 9, 1, 4, 4]).1 (heapFrom_of_heapCheck (by decide))⟩


/-! ## `sort_heap` and the heap invariant -/

/-- A non-decreasing sequence satisfies the max-heap invariant exactly when
all its elements are equal. -/
theorem sorted_isMaxHeap_iff {b : List α} (hs : b.Sorted (fun x y => x ≤ y)) :
    IsMaxHeap b ↔ ∀ x ∈ b, ∀ y ∈ b, x = y := by
  constructor
  · intro H
    have key : ∀ x ∈ b, ∀ m, b[0]? = some m → x = m := by
      intro x hx m hm
      obtain ⟨i, hi⟩ := List.mem_iff_getElem?.1 hx
      obtain ⟨hil, hix⟩ := List.getElem?_eq_some_iff.1 hi
      obtain ⟨h0l, h0m⟩ := List.getElem?_eq_some_iff.1 hm
      have h1 : x ≤ m := heap_root_max H (Nat.le_refl _) hm i x hil hi
      have h2 : m ≤ x := by
        rcases Nat.eq_zero_or_pos i with h0 | hpos
        · subst h0
          rw [hm] at hi
          cases hi
          exact le_refl _
        · have := (List.pairwise_iff_getElem.1 hs) 0 i h0l hil hpos
          rwa [h0m, hix] at this
      exact le_antisymm h1 h2
    intro x hx y hy
    have h0 : 0 < b.length := List.length_pos_of_mem hx
    have hm : b[0]? = some b[0] := List.getElem?_eq_getElem h0
    rw [key x hx _ hm, key y hy _ hm]
  · intro hall i c x y _ _ _ hx hy
    have hxm : x ∈ b := List.mem_iff_getElem?.2 ⟨i, hx⟩
    have hym : y ∈ b := List.mem_iff_getElem?.2 ⟨c, hy⟩
    rw [hall x hxm y hym]
    exact lt_irrefl _

/-- C19, as the code has it: from a heap, the result of `sort_heap` over the
whole range satisfies the max-heap invariant exactly when all elements of the
sequence are equal; so the invariant is destroyed exactly on the heaps that
hold two different values. -/
theorem sort_heap_keeps_heap_iff_all_equal (a : List α) (hH : IsMaxHeap a) :
    ∃ b, sort_heap a a.length = some b ∧
      (IsMaxHeap b ↔ ∀ x ∈ a, ∀ y ∈ a, x = y) ∧
      ((∃ x ∈ a, ∃ y ∈ a, x ≠ y) → ¬ IsMaxHeap b) := by
  obtain ⟨b, hb, _, hs, hp⟩ := sort_heap_sorted a hH
  have hiff : IsMaxHeap b ↔ ∀ x ∈ a, ∀ y ∈ a, x = y := by
    rw [sorted_isMaxHeap_iff hs]
    constructor
    · intro h x hx y hy
      exact h x (hp.mem_iff.2 hx) y (hp.mem_iff.2 hy)
    · intro h x hx y hy
      exact h x (hp.mem_iff.1 hx) y (hp.mem_iff.1 hy)
  refine ⟨b, hb, hiff, ?_⟩
  rintro ⟨x, hx, y, hy, hne⟩ hheap
  exact hne (hiff.1 hheap x hx y hy)

/-- C19 fails as stated: `[2,2]` is a heap, and `sort_heap` returns `[2,2]`,
which is a heap again. -/
theorem sort_heap_keeps_heap_counterexample :
    IsMaxHeap ([2, 2] : List Int) ∧
      sort_heap ([2, 2] : List Int) 2 = some [2, 2] ∧ IsMaxHeap ([2, 2] : List Int) ∧
      ¬ (∀ a : List Int, IsMaxHeap a →
        ∀ b, sort_heap a a.length = some b → ¬ IsMaxHeap b) := by
  have h1 : IsMaxHeap ([2, 2] : List Int) := heapFrom_of_heapCheck (by decide)
  have h2 : sort_heap ([2, 2] : List Int) 2 = some [2, 2] := by
    simp [sort_heap, pop_heap, __pop_heap, __pop_heap_aux, __adjust_heap, __adjust_heap_loop,
      __push_heap_aux, __push_heap_aux_loop, load, store]
  exact ⟨h1, h2, h1, fun h => h [2, 2] h1 [2, 2] h2 h1⟩

/-- Instance of `sort_heap_keeps_heap_iff_all_equal` on the heap
`[9,6,4,1,5,3,2,1]`, which holds the two different values `9` and `6`. -/
theorem sort_heap_keeps_heap_iff_all_equal_witness :
    IsMaxHeap ([9, 6, 4, 1, 5, 3, 2, 1] : List Int) ∧
      ∃ b, sort_heap ([9, 6, 4, 1, 5, 3, 2, 1] : List Int) 8 = some b ∧
        (IsMaxHeap b ↔
          ∀ x ∈ ([9, 6, 4, 1, 5, 3, 2, 1] : List Int),
            ∀ y ∈ ([9, 6, 4, 1, 5, 3, 2, 1] : List Int), x = y) ∧
        ((∃ x ∈ ([9, 6, 4, 1, 5, 3, 2, 1] : List Int),
            ∃ y ∈ ([9, 6, 4, 1, 5, 3, 2, 1] : List Int), x ≠ y) → ¬ IsMaxHeap b) :=
  ⟨heapFrom_of_heapCheck (by decide),
    sort_heap_keeps_heap_iff_all_equal [9, 6, 4, 1, 5, 3, 2, 1]
      (heapFrom_of_heapCheck (by decide))⟩

end Proofs

end MyTinySTL
